import Mathlib

/-!
Verification of the MicroCost core: the directed dependency graph engine
(internal/graph/graph.go) and the cost attribution engine
(internal/costengine/calculator.go, pkg/models/cost.go).

Modelling conventions:
* Go float64 values are modelled as exact rationals; the formulas in the
  source are pure arithmetic on them.
* Go maps are modelled as association lists with store-replaces semantics
  (insertA); iterating a Go map has unspecified order, which is covered by
  quantifying over all orders of the association list.
* Mutable state threaded through recursion (visited sets, queues,
  in-degree tables) is passed functionally, mirroring the exact
  push/pop/store order of the Go code.
* Recursive Go functions are given a fuel parameter when their Go
  termination argument is a bound check (downstream recursion bounded by
  depth 10, DFS bounded by the number of nodes); the fuel passed at the
  real entry points makes the fuel-exhaustion branch coincide with the
  bound check of the source.
* Opaque payload fields (interface values, timestamps, latency figures,
  logging) are elided; they are never read by the verified code.
-/

namespace MicroCost

/-! ### Association-list model of Go maps -/

/-- Lookup in an association list; the model of reading a Go map. -/
def lookupA {α : Type} (l : List (String × α)) (k : String) : Option α :=
  match l with
  | [] => none
  | (k', v) :: rest => if k' = k then some v else lookupA rest k

/-- Store into an association list, replacing an existing binding;
the model of writing to a Go map. -/
def insertA {α : Type} (l : List (String × α)) (k : String) (v : α) :
    List (String × α) :=
  match l with
  | [] => [(k, v)]
  | (k', v') :: rest =>
      if k' = k then (k, v) :: rest else (k', v') :: insertA rest k v

/-- Add a delta to the integer stored at a key, treating a missing key as 0;
the model of the Go increment/decrement on a map of ints. -/
def bumpA (l : List (String × Int)) (k : String) (d : Int) :
    List (String × Int) :=
  match l with
  | [] => [(k, d)]
  | (k', v') :: rest =>
      if k' = k then (k, v' + d) :: rest else (k', v') :: bumpA rest k d

/-! ### Graph engine data model (internal/graph/graph.go) -/

/-- A vertex of the dependency graph.  The opaque Data payload is elided. -/
structure Node where
  id : String
  service : String
  endpoint : String
  method : String
deriving DecidableEq, Repr

/-- A directed edge.  The Go struct stores pointers to its endpoint nodes
and an optional Dependency payload (elided: never read by the algorithms). -/
structure Edge where
  fromNode : Node
  toNode : Node
  weight : ℚ
deriving DecidableEq, Repr

/-- The graph: a map of nodes keyed by id and a list of edges.  The node
map is modelled as the list of its entries (ids unique for well-formed
graphs, as AddNode guarantees in the source). -/
structure Graph where
  nodes : List Node
  edges : List Edge
deriving DecidableEq, Repr

/-- GetNode: map lookup by id. -/
def Graph.getNode (g : Graph) (id : String) : Option Node :=
  g.nodes.find? (fun n => n.id = id)

/-- GetOutgoingEdges: linear scan keeping edges whose source has this id. -/
def Graph.getOutgoingEdges (g : Graph) (node : Node) : List Edge :=
  g.edges.filter (fun e => e.fromNode.id = node.id)

/-- GetIncomingEdges: linear scan keeping edges whose target has this id. -/
def Graph.getIncomingEdges (g : Graph) (node : Node) : List Edge :=
  g.edges.filter (fun e => e.toNode.id = node.id)

/-- The loop body of hasCycleDFS over the outgoing edges of the current
node: an unvisited target is explored recursively (through the dfs
argument), a visited target on the recursion stack is a back edge and
reports a cycle, any other visited target is skipped.  The visited set is
threaded left to right exactly as the shared Go map is. -/
def hasCycleDFSList (dfs : String → List String → List String → Bool × List String)
    (recStack : List String) :
    List Edge → List String → Bool × List String
  | [], visited => (false, visited)
  | e :: rest, visited =>
      if e.toNode.id ∈ visited then
        if e.toNode.id ∈ recStack then (true, visited)
        else hasCycleDFSList dfs recStack rest visited
      else
        match dfs e.toNode.id visited recStack with
        | (true, visited') => (true, visited')
        | (false, visited') => hasCycleDFSList dfs recStack rest visited'

/-- hasCycleDFS: marks the node visited, pushes it on the recursion stack,
scans its outgoing edges, and (on a false result) implicitly pops the
stack by returning to a caller that still holds the old stack.  Fuel
bounds the recursion depth; every real call receives more fuel than there
are unvisited nodes, so the fuel-exhaustion branch is never taken. -/
def hasCycleDFS (g : Graph) :
    Nat → String → List String → List String → Bool × List String
  | 0, _, visited, _ => (false, visited)
  | fuel + 1, nodeId, visited, recStack =>
      let visited' := nodeId :: visited
      match g.getNode nodeId with
      | none => (false, visited')
      | some node =>
          hasCycleDFSList (hasCycleDFS g fuel) (nodeId :: recStack)
            (g.getOutgoingEdges node) visited'

/-- The top-level loop of HasCycle: run a DFS from every node not visited
by an earlier root. -/
def hasCycleRoots (g : Graph) : List Node → List String → Bool
  | [], _ => false
  | n :: rest, visited =>
      if n.id ∈ visited then hasCycleRoots g rest visited
      else
        match hasCycleDFS g (g.nodes.length + 1) n.id visited [] with
        | (true, _) => true
        | (false, visited') => hasCycleRoots g rest visited'

/-- HasCycle: DFS with a recursion-stack set over every component. -/
def Graph.HasCycle (g : Graph) : Bool :=
  hasCycleRoots g g.nodes []

/-- One step of the Kahn queue processing for an outgoing edge of the
popped node: decrement the in-degree of the target (Go map semantics:
missing key reads as 0) and enqueue the target when its count reaches 0. -/
def kahnEdgeStep (acc : List (String × Int) × List Node) (e : Edge) :
    List (String × Int) × List Node :=
  let deg' := bumpA acc.1 e.toNode.id (-1)
  if lookupA deg' e.toNode.id = some 0 then (deg', acc.2 ++ [e.toNode])
  else (deg', acc.2)

/-- The Kahn worklist loop: pop the queue front, append it to the sorted
output, decrement in-degrees along its outgoing edges, enqueue targets
that reach in-degree 0.  Fuel equal to the node count suffices: each
iteration appends a distinct node (see topologicalSort_correct). -/
def kahnLoop (g : Graph) :
    Nat → List Node → List (String × Int) → List Node → List Node
  | _, [], _, sorted => sorted
  | 0, _ :: _, _, sorted => sorted
  | fuel + 1, q :: rest, deg, sorted =>
      let step := (g.getOutgoingEdges q).foldl kahnEdgeStep (deg, rest)
      kahnLoop g fuel step.2 step.1 (sorted ++ [q])

/-- The initial in-degree table: every node id at 0, then one increment
per edge into its target (Go map increment semantics). -/
def kahnInDegrees (g : Graph) : List (String × Int) :=
  g.edges.foldl (fun m e => bumpA m e.toNode.id 1)
    (g.nodes.map (fun n => (n.id, (0 : Int))))

/-- The initial queue: the nodes whose in-degree is 0, resolved through
GetNode as in the source. -/
def kahnInitQueue (g : Graph) : List Node :=
  (kahnInDegrees g).filterMap
    (fun p => if p.2 = 0 then g.getNode p.1 else none)

/-- The error message returned for a cyclic graph. -/
def cyclicGraphMsg : String :=
  "graph contains cycles, cannot perform topological sort"

/-- TopologicalSort: reject cyclic graphs, then run Kahn's algorithm. -/
def Graph.TopologicalSort (g : Graph) : Except String (List Node) :=
  if g.HasCycle then Except.error cyclicGraphMsg
  else Except.ok (kahnLoop g g.nodes.length (kahnInitQueue g) (kahnInDegrees g) [])

/-- findPathsDFS: bounded DFS path enumeration.  The fuel is
maxDepth + 1 - (length of the current path); the length check of the
source is kept inside the body, and the fuel-exhaustion branch coincides
with it at the real entry point (see FindAllPaths). -/
def findPathsDFS (g : Graph) (endId : String) (maxDepth : Nat) :
    Nat → Node → List Node → List String → List (List Node)
  | 0, _, _, _ => []
  | fuel + 1, current, currentPath, visited =>
      if currentPath.length > maxDepth then []
      else
        let currentPath' := currentPath ++ [current]
        let visited' := current.id :: visited
        if current.id = endId then [currentPath']
        else
          (g.getOutgoingEdges current).flatMap
            (fun e =>
              if e.toNode.id ∈ visited' then []
              else findPathsDFS g endId maxDepth fuel e.toNode currentPath' visited')

/-- FindAllPaths: enumerate all simple paths from startId to endId with at
most maxDepth hops; an unknown start node yields the empty list. -/
def Graph.FindAllPaths (g : Graph) (startId endId : String) (maxDepth : Nat) :
    List (List Node) :=
  match g.getNode startId with
  | none => []
  | some start => findPathsDFS g endId maxDepth (maxDepth + 1) start [] []

/-! ### Mathematical graph vocabulary used to state the claims -/

/-- The edge relation on node ids induced by the edge list. -/
def EdgeRel (g : Graph) (u v : String) : Prop :=
  ∃ e ∈ g.edges, e.fromNode.id = u ∧ e.toNode.id = v

/-- A graph is cyclic when some node reaches itself through at least one
edge. -/
def Cyclic (g : Graph) : Prop :=
  ∃ u, Relation.TransGen (EdgeRel g) u u

/-- Acyclicity: no nonempty closed walk. -/
def Acyclic (g : Graph) : Prop := ¬ Cyclic g

/-- Well-formed graphs: node ids are unique (AddNode is idempotent by id)
and every edge joins nodes of the graph (the documented input contract;
the Go code dereferences the node map entry and would crash otherwise). -/
def WFGraph (g : Graph) : Prop :=
  (g.nodes.map (fun n => n.id)).Nodup ∧
    ∀ e ∈ g.edges, e.fromNode ∈ g.nodes ∧ e.toNode ∈ g.nodes

instance (g : Graph) : Decidable (WFGraph g) :=
  decidable_of_iff ((g.nodes.map (fun n : Node => n.id)).Nodup ∧
    ∀ e ∈ g.edges, e.fromNode ∈ g.nodes ∧ e.toNode ∈ g.nodes) Iff.rfl

/-- u appears strictly before v in the list l. -/
def Before (l : List Node) (u v : Node) : Prop :=
  ∃ l1 l2, l = l1 ++ u :: l2 ∧ v ∈ l2

/-! ### Service / dependency model (pkg/models/service.go) -/

/-- A call edge between a (service, endpoint) pair and a target pair.
Provenance fields (id, detectedAt, lineNumber) are elided. -/
structure Dependency where
  fromService : String
  fromEndpoint : String
  toService : String
  toEndpoint : String
  callType : String
  weight : ℚ
deriving DecidableEq, Repr

/-- An API endpoint.  The Go struct holds a back-pointer to its owning
Service; only its Name is ever read, so the back-reference is flattened
to that name.  The computed cost fields on the Go struct are never read
by the calculator and are elided. -/
structure Endpoint where
  path : String
  method : String
  serviceName : String
deriving DecidableEq, Repr

/-- A microservice: its name and its endpoints (path, dependency list and
metadata are never read by the calculator and are elided).  The Go call
graph keys its service map by the same name. -/
structure Service where
  name : String
  endpoints : List Endpoint
deriving DecidableEq, Repr

/-- The complete dependency model handed to the calculator.  The service
map is modelled as the list of its entries. -/
structure CallGraph where
  services : List Service
  dependencies : List Dependency
deriving DecidableEq, Repr

/-- GetService: map lookup by name. -/
def CallGraph.getService (cg : CallGraph) (name : String) : Option Service :=
  cg.services.find? (fun s => s.name = name)

/-- GetEndpoint: linear scan for a path/method match. -/
def Service.getEndpoint (s : Service) (path method : String) : Option Endpoint :=
  s.endpoints.find? (fun ep => ep.path = path ∧ ep.method = method)

/-! ### Metrics model (pkg/models/metrics.go) -/

/-- Resource consumption of one endpoint over the window (timestamp
elided). -/
structure ResourceMetrics where
  cpuCores : ℚ
  memoryMB : ℚ
  networkInMB : ℚ
  networkOutMB : ℚ
  diskReadMB : ℚ
  diskWriteMB : ℚ
deriving DecidableEq, Repr

/-- Performance figures of one endpoint (latency percentiles and
timestamp elided; only the request and error rates are numeric inputs of
the calculator and only the request rate is read). -/
structure PerformanceMetrics where
  requestRate : ℚ
  errorRate : ℚ
deriving DecidableEq, Repr

/-- Combined metrics for an endpoint; either pointer may be nil in Go. -/
structure EndpointMetrics where
  resource : Option ResourceMetrics
  performance : Option PerformanceMetrics
deriving DecidableEq, Repr

/-- Metrics of all endpoints of one service, keyed by "path:method"
(aggregate resource figures elided: never read by the calculator). -/
structure ServiceMetrics where
  serviceName : String
  endpoints : List (String × EndpointMetrics)
deriving DecidableEq, Repr

/-- A snapshot of all service metrics, keyed by service name. -/
structure MetricsSnapshot where
  services : List (String × ServiceMetrics)
deriving DecidableEq, Repr

/-- GetServiceMetrics: map lookup by service name. -/
def MetricsSnapshot.getServiceMetrics (ms : MetricsSnapshot) (name : String) :
    Option ServiceMetrics :=
  lookupA ms.services name

/-- A metric time window; instants are measured in hours so that the
duration of the Go source (End.Sub(Start).Hours()) is stop - start. -/
structure TimeRange where
  start : ℚ
  stop : ℚ
deriving DecidableEq, Repr

/-! ### Cost model (pkg/models/cost.go) -/

/-- Unit prices per resource dimension. -/
structure CostModel where
  cpuCostPerCoreHour : ℚ
  memoryCostPerGBHour : ℚ
  networkCostPerGB : ℚ
  diskCostPerGBHour : ℚ
  requestCost : ℚ
  provider : String
  region : String
deriving DecidableEq, Repr

/-- Detailed cost attribution of one endpoint (the Details map is elided:
write-only in the source). -/
structure CostBreakdown where
  cpuCost : ℚ
  memoryCost : ℚ
  networkCost : ℚ
  diskCost : ℚ
  requestCost : ℚ
  downstreamTotal : ℚ
  total : ℚ
deriving DecidableEq, Repr

/-- Cost attributed from one downstream dependency. -/
structure DownstreamCost where
  service : String
  endpoint : String
  cost : ℚ
  callsPerRequest : ℚ
  depth : Nat
deriving DecidableEq, Repr

/-- The cost figures of one endpoint. -/
structure EndpointCost where
  service : String
  endpoint : String
  method : String
  directCost : ℚ
  downstreamCosts : List DownstreamCost
  totalCost : ℚ
  costPerRequest : ℚ
  requestCount : ℚ
  costBreakdown : Option CostBreakdown
deriving DecidableEq, Repr

/-- Aggregated costs of one service; the endpoint map is keyed by
"path:method". -/
structure ServiceCost where
  serviceName : String
  endpoints : List (String × EndpointCost)
  totalCost : ℚ
  directCost : ℚ
  attributedCost : ℚ
deriving DecidableEq, Repr

/-- A generated recommendation.  The Go code renders each as a formatted
string; the model keeps the rule tag and the interpolated fields, which
is the entire information content of the message. -/
inductive Recommendation where
  /-- "Consider optimizing (service)(endpoint) - highest cost endpoint at
  $(costPerRequest) per request" -/
  | optimizeTop (service endpoint : String) (costPerRequest : ℚ)
  /-- "(service)(endpoint) has 5x more downstream cost than direct cost -
  review dependency chain" -/
  | reviewChain (service endpoint : String)
deriving DecidableEq, Repr

/-- The complete cost report (GeneratedAt timestamp elided). -/
structure CostReport where
  services : List (String × ServiceCost)
  totalCost : ℚ
  timeRange : TimeRange
  costModel : CostModel
  topCostly : List EndpointCost
  recommendations : List Recommendation
deriving DecidableEq, Repr

/-- NewCostReport: empty report for the given model and window. -/
def NewCostReport (costModel : CostModel) (timeRange : TimeRange) : CostReport :=
  { services := [], totalCost := 0, timeRange := timeRange,
    costModel := costModel, topCostly := [], recommendations := [] }

/-- AddServiceCost: store the service cost under its name and add its
total to the report total. -/
def CostReport.AddServiceCost (cr : CostReport) (sc : ServiceCost) : CostReport :=
  { cr with services := insertA cr.services sc.serviceName sc,
            totalCost := cr.totalCost + sc.totalCost }

/-- NewCostBreakdown: the direct-cost formulas.  Resource costs are
computed only when both the resource metrics and the model are present;
the request cost only when the performance metrics and the model are
present; the total is always the sum of the five dimensions. -/
def NewCostBreakdown (metrics : Option ResourceMetrics)
    (perfMetrics : Option PerformanceMetrics) (model : Option CostModel)
    (durationHours : ℚ) : CostBreakdown :=
  match model with
  | none =>
      { cpuCost := 0, memoryCost := 0, networkCost := 0, diskCost := 0,
        requestCost := 0, downstreamTotal := 0, total := 0 }
  | some c =>
      let resourcePart := match metrics with
        | some m =>
            (m.cpuCores * c.cpuCostPerCoreHour * durationHours,
              m.memoryMB / 1024 * c.memoryCostPerGBHour * durationHours,
              (m.networkInMB + m.networkOutMB) / 1024 * c.networkCostPerGB,
              (m.diskReadMB + m.diskWriteMB) / 1024 * c.diskCostPerGBHour * durationHours)
        | none => ((0 : ℚ), (0 : ℚ), (0 : ℚ), (0 : ℚ))
      let req := match perfMetrics with
        | some p => p.requestRate * c.requestCost * durationHours * 3600
        | none => 0
      { cpuCost := resourcePart.1, memoryCost := resourcePart.2.1,
        networkCost := resourcePart.2.2.1, diskCost := resourcePart.2.2.2,
        requestCost := req, downstreamTotal := 0,
        total := resourcePart.1 + resourcePart.2.1 + resourcePart.2.2.1 +
          resourcePart.2.2.2 + req }

/-! ### Cost attribution engine (internal/costengine/calculator.go) -/

/-- The "path:method" key used for the per-service endpoint maps. -/
def epKey (ep : Endpoint) : String := ep.path ++ ":" ++ ep.method

/-- calculateEndpointCost: the direct cost of one endpoint.  Missing
service metrics, a missing endpoint key or missing resource data yield
the zero-valued cost (graceful degradation); otherwise the breakdown
total becomes the direct cost and the request count is derived from the
request rate. -/
def calculateEndpointCost (costModel : CostModel) (ep : Endpoint)
    (serviceMetrics : Option ServiceMetrics) (durationHours : ℚ) :
    EndpointCost :=
  let ec : EndpointCost :=
    { service := ep.serviceName, endpoint := ep.path, method := ep.method,
      directCost := 0, downstreamCosts := [], totalCost := 0,
      costPerRequest := 0, requestCount := 0, costBreakdown := none }
  match serviceMetrics with
  | none => ec
  | some sm =>
      match lookupA sm.endpoints (epKey ep) with
      | none => ec
      | some em =>
          match em.resource with
          | none => ec
          | some _ =>
              let cb := NewCostBreakdown em.resource em.performance
                (some costModel) durationHours
              { ec with
                  directCost := cb.total,
                  costBreakdown := some cb,
                  requestCount :=
                    match em.performance with
                    | some p => p.requestRate * durationHours * 3600
                    | none => 0 }

/-- The "toService:toEndpoint" key recorded in the per-path visited set. -/
def depVisitKey (dep : Dependency) : String :=
  dep.toService ++ ":" ++ dep.toEndpoint

/-- Whether a dependency edge starts at this endpoint. -/
def depMatches (ep : Endpoint) (dep : Dependency) : Prop :=
  dep.fromService = ep.serviceName ∧ dep.fromEndpoint = ep.path

instance (ep : Endpoint) (dep : Dependency) : Decidable (depMatches ep dep) :=
  decidable_of_iff (dep.fromService = ep.serviceName ∧
    dep.fromEndpoint = ep.path) Iff.rfl

/-- The direct cost read from an endpoint-cost map, a missing key reading
as 0 (the var + map-lookup idiom of the source). -/
def lookupDirect (endpointCosts : List (String × EndpointCost)) (k : String) : ℚ :=
  match lookupA endpointCosts k with
  | some ec => ec.directCost
  | none => 0

/-- The target endpoint a dependency recurses into: the target service by
name, then its endpoint under the hardcoded method "GET" (the
"// Simplified" lookup of the source). -/
def resolveTarget (cg : CallGraph) (dep : Dependency) : Option Endpoint :=
  match cg.getService dep.toService with
  | none => none
  | some ts => ts.getEndpoint dep.toEndpoint "GET"

/-- calculateDownstreamCosts.  For every dependency out of the endpoint
that is not already on the current path: record one entry costed from the
endpoint-cost map under key "toEndpoint:GET" times the edge weight, then
recurse into the resolved target with the key pushed on the visited set
(popped on return by construction) and append the nested entries scaled
by this edge's weight.  The source bounds recursion by depth > 10; fuel
11 - depth makes the fuel-0 branch coincide with that check, and the
check is kept in the body. -/
def calculateDownstreamCosts (cg : CallGraph)
    (endpointCosts : List (String × EndpointCost)) :
    Nat → Endpoint → Nat → List String → List DownstreamCost
  | 0, _, _, _ => []
  | fuel + 1, ep, depth, visited =>
      if depth > 10 then []
      else
        cg.dependencies.flatMap (fun dep =>
          if depMatches ep dep then
            if depVisitKey dep ∈ visited then []
            else
              let targetCost := lookupDirect endpointCosts (dep.toEndpoint ++ ":" ++ "GET")
              let dc : DownstreamCost :=
                { service := dep.toService, endpoint := dep.toEndpoint,
                  cost := targetCost * dep.weight,
                  callsPerRequest := dep.weight, depth := depth + 1 }
              match resolveTarget cg dep with
              | some te =>
                  dc :: (calculateDownstreamCosts cg endpointCosts fuel te
                      (depth + 1) (depVisitKey dep :: visited)).map
                    (fun nc => { nc with cost := nc.cost * dep.weight })
              | none => [dc]
          else [])

/-- Instrumented copy of calculateDownstreamCosts that additionally
returns, for every recursive entry into a dependency target, the visited
set as it stood just before the target's key was pushed.  Its first
component coincides with calculateDownstreamCosts
(calculateDownstreamCosts_trace_fst); the event list makes the temporal
push/pop discipline of the traversal provable. -/
def calculateDownstreamCostsTrace (cg : CallGraph)
    (endpointCosts : List (String × EndpointCost)) :
    Nat → Endpoint → Nat → List String →
      List DownstreamCost × List (String × List String)
  | 0, _, _, _ => ([], [])
  | fuel + 1, ep, depth, visited =>
      if depth > 10 then ([], [])
      else
        (cg.dependencies.map (fun dep =>
          if depMatches ep dep then
            if depVisitKey dep ∈ visited then ([], [])
            else
              let targetCost := lookupDirect endpointCosts (dep.toEndpoint ++ ":" ++ "GET")
              let dc : DownstreamCost :=
                { service := dep.toService, endpoint := dep.toEndpoint,
                  cost := targetCost * dep.weight,
                  callsPerRequest := dep.weight, depth := depth + 1 }
              match resolveTarget cg dep with
              | some te =>
                  let nested := calculateDownstreamCostsTrace cg endpointCosts fuel te
                    (depth + 1) (depVisitKey dep :: visited)
                  (dc :: nested.1.map (fun nc => { nc with cost := nc.cost * dep.weight }),
                    (depVisitKey dep, visited) :: nested.2)
              | none => ([dc], [])
          else ([], []))).foldr
          (fun p acc => (p.1 ++ acc.1, p.2 ++ acc.2)) ([], [])

/-- The sum of the recorded downstream entry costs of an endpoint cost. -/
def dtSum (ec : EndpointCost) : ℚ :=
  (ec.downstreamCosts.map (fun dc => dc.cost)).sum

/-- The second pass of CalculateCosts for one endpoint: compute its
downstream entries against the current endpoint-cost map, store them, set
the total, finalize the breakdown (when present) and derive the cost per
request.  The Go code mutates the map entry in place; entries under other
keys are untouched. -/
def finalizeEndpoint (cg : CallGraph) (ep : Endpoint)
    (m : List (String × EndpointCost)) : List (String × EndpointCost) :=
  match lookupA m (epKey ep) with
  | none => m
  | some ec =>
      let downstreamCosts := calculateDownstreamCosts cg m 11 ep 0 []
      let downstreamTotal := (downstreamCosts.map (fun dc => dc.cost)).sum
      let totalCost := ec.directCost + downstreamTotal
      let ec' : EndpointCost :=
        { ec with
            downstreamCosts := downstreamCosts,
            totalCost := totalCost,
            costBreakdown := ec.costBreakdown.map
              (fun cb => { cb with downstreamTotal := downstreamTotal,
                                   total := totalCost }),
            costPerRequest :=
              if ec.requestCount > 0 then totalCost / ec.requestCount
              else ec.costPerRequest }
      insertA m (epKey ep) ec'

/-- The per-service body of CalculateCosts: direct costs and the endpoint
map (first pass), downstream attribution (second pass), then the service
totals. -/
def serviceCostFor (costModel : CostModel) (cg : CallGraph)
    (snapshot : MetricsSnapshot) (durationHours : ℚ) (service : Service) :
    ServiceCost :=
  let serviceMetrics := snapshot.getServiceMetrics service.name
  let phase1 := service.endpoints.foldl
    (fun (acc : List (String × EndpointCost) × ℚ) ep =>
      let ec := calculateEndpointCost costModel ep serviceMetrics durationHours
      (insertA acc.1 (epKey ep) ec, acc.2 + ec.directCost))
    ([], 0)
  let endpoints2 := service.endpoints.foldl
    (fun m ep => finalizeEndpoint cg ep m) phase1.1
  let attributed := (endpoints2.map (fun kv => dtSum kv.2)).sum
  { serviceName := service.name, endpoints := endpoints2,
    directCost := phase1.2, attributedCost := attributed,
    totalCost := phase1.2 + attributed }

/-- findTopCostlyEndpoints: all endpoint costs of the report ordered by
descending total cost, truncated to n.  The source orders them with an
in-place exchange sort; the model uses an insertion sort, which likewise
produces a descending reordering of the same endpoint costs (no consumer
depends on the order among equal totals). -/
def findTopCostlyEndpoints (report : CostReport) (n : Nat) : List EndpointCost :=
  let allEndpoints := report.services.flatMap
    (fun kv => kv.2.endpoints.map (fun kv2 => kv2.2))
  (allEndpoints.insertionSort (fun a b => b.totalCost ≤ a.totalCost)).take n

/-- The contribution of one endpoint cost to the dependency-chain rule: a
"review dependency chain" recommendation exactly when a breakdown is
present, the direct cost is strictly positive and the downstream/direct
quotient exceeds 5. -/
def reviewChainRec (ec : EndpointCost) : List Recommendation :=
  match ec.costBreakdown with
  | some cb =>
      if ec.directCost > 0 ∧ cb.downstreamTotal / ec.directCost > 5 then
        [Recommendation.reviewChain ec.service ec.endpoint]
      else []
  | none => []

/-- generateRecommendations: one line for the top costly endpoint when
one exists, then the dependency-chain rule over every endpoint of every
service. -/
def generateRecommendations (report : CostReport) : List Recommendation :=
  (match report.topCostly with
   | [] => []
   | top :: _ => [Recommendation.optimizeTop top.service top.endpoint top.costPerRequest]) ++
  report.services.flatMap (fun kv => kv.2.endpoints.flatMap (fun kv2 => reviewChainRec kv2.2))

/-- CalculateCosts: the full calculation.  The second component models
the error result of the Go signature, which the source always returns as
nil. -/
def CalculateCosts (costModel : CostModel) (callGraph : CallGraph)
    (snapshot : MetricsSnapshot) (timeRange : TimeRange) :
    CostReport × Option String :=
  let durationHours := timeRange.stop - timeRange.start
  let report1 := callGraph.services.foldl
    (fun rep service =>
      rep.AddServiceCost (serviceCostFor costModel callGraph snapshot durationHours service))
    (NewCostReport costModel timeRange)
  let report2 := { report1 with topCostly := findTopCostlyEndpoints report1 10 }
  let report3 := { report2 with recommendations := generateRecommendations report2 }
  (report3, none)

/-! ### Association-list keys -/

/-- The keys of an association list. -/
def keysA {α : Type} (l : List (String × α)) : List String :=
  l.map Prod.fst

/-! ### Vocabulary for claim C7: endpoints without usable metrics -/

/-- The three graceful-degradation cases of calculateEndpointCost: no
metrics for the service, no entry under the endpoint key, or an entry
without resource data. -/
def noUsableMetrics (sm : Option ServiceMetrics) (ep : Endpoint) : Prop :=
  match sm with
  | none => True
  | some s =>
      match lookupA s.endpoints (epKey ep) with
      | none => True
      | some em => em.resource = none

/-! ### Vocabulary for claim C3: DFS measures and invariants -/

/-- The ids of the graph's nodes. -/
def nodeIds (g : Graph) : List String :=
  g.nodes.map (fun n => n.id)

/-- The number of node ids not yet visited; the measure showing the DFS
fuel is never exhausted. -/
def unvisCount (g : Graph) (visited : List String) : Nat :=
  ((nodeIds g).filter (fun x => x ∉ visited)).length

/-- No node that is visited but off the given recursion stack lies on a
cycle: the invariant behind completeness of the DFS cycle detection. -/
def NoCycleOff (g : Graph) (V S : List String) : Prop :=
  ∀ b ∈ V, b ∉ S → ¬ Relation.TransGen (EdgeRel g) b b

/-! ### Vocabulary for claim C3: in-degree counting and an example graph -/

/-- The number of edges into v whose source is not yet processed (not in P):
the abstract value of the in-degree table during Kahn's algorithm. -/
def remDeg (g : Graph) (P : List String) (v : String) : Nat :=
  (g.edges.filter (fun e => decide (e.toNode.id = v ∧ e.fromNode.id ∉ P))).length

/-- The number of edges of the list aimed at v. -/
def cntTo (es : List Edge) (v : String) : Nat :=
  (es.filter (fun e => decide (e.toNode.id = v))).length

def c3N1 : Node :=
  { id := "svcA:/a:GET", service := "svcA", endpoint := "/a", method := "GET" }

def c3N2 : Node :=
  { id := "svcB:/b:GET", service := "svcB", endpoint := "/b", method := "GET" }

def c3N3 : Node :=
  { id := "svcC:/c:GET", service := "svcC", endpoint := "/c", method := "GET" }

def c3Graph : Graph :=
  { nodes := [c3N1, c3N2, c3N3]
    edges := [{ fromNode := c3N1, toNode := c3N2, weight := 1 },
              { fromNode := c3N2, toNode := c3N3, weight := 1 },
              { fromNode := c3N1, toNode := c3N3, weight := 2 }] }

/-! ### Vocabulary for claim C5: simple bounded paths and the diamond graph -/

/-- Adjacency on node ids through some edge of the graph. -/
def AdjId (g : Graph) (a b : Node) : Prop :=
  ∃ e ∈ g.edges, e.fromNode.id = a.id ∧ e.toNode.id = b.id

instance (g : Graph) (a b : Node) : Decidable (AdjId g a b) :=
  decidable_of_iff (∃ e ∈ g.edges, e.fromNode.id = a.id ∧ e.toNode.id = b.id)
    Iff.rfl

/-- The node list is chained along edges of the graph. -/
def ChainAdj (g : Graph) : List Node → Prop
  | [] => True
  | [_] => True
  | a :: b :: rest => AdjId g a b ∧ ChainAdj g (b :: rest)

instance chainAdjDec (g : Graph) : (l : List Node) → Decidable (ChainAdj g l)
  | [] => inferInstanceAs (Decidable True)
  | [_] => inferInstanceAs (Decidable True)
  | _ :: b :: rest =>
      have := chainAdjDec g (b :: rest)
      inferInstanceAs (Decidable (_ ∧ _))

/-- A simple path from startId to endId of at most maxDepth hops: a
nonempty sequence of graph nodes without a repeated id, chained along
edges, starting at startId, ending at endId, with at most maxDepth + 1
nodes. -/
def IsSimplePath (g : Graph) (startId endId : String) (maxDepth : Nat)
    (p : List Node) : Prop :=
  p ≠ [] ∧ (∀ x ∈ p, x ∈ g.nodes) ∧ (p.map (fun n => n.id)).Nodup ∧
    p.head?.map (fun n => n.id) = some startId ∧
    p.getLast?.map (fun n => n.id) = some endId ∧
    ChainAdj g p ∧ p.length ≤ maxDepth + 1

instance (g : Graph) (startId endId : String) (maxDepth : Nat) (p : List Node) :
    Decidable (IsSimplePath g startId endId maxDepth p) :=
  decidable_of_iff (p ≠ [] ∧ (∀ x ∈ p, x ∈ g.nodes) ∧
    (p.map (fun n : Node => n.id)).Nodup ∧
    (p.head?.map (fun n : Node => n.id) = some startId) ∧
    (p.getLast?.map (fun n : Node => n.id) = some endId) ∧
    ChainAdj g p ∧ p.length ≤ maxDepth + 1) Iff.rfl

def c5N1 : Node := { id := "node1", service := "service1", endpoint := "/api/test", method := "GET" }

def c5N2 : Node := { id := "node2", service := "service2", endpoint := "/api/other", method := "GET" }

def c5N3 : Node := { id := "node3", service := "service3", endpoint := "/api/third", method := "GET" }

def c5N4 : Node := { id := "node4", service := "service4", endpoint := "/api/fourth", method := "GET" }

/-- The diamond graph of the FindAllPaths test: two routes from node1 to
node4. -/
def c5Graph : Graph :=
  { nodes := [c5N1, c5N2, c5N3, c5N4],
    edges := [ { fromNode := c5N1, toNode := c5N2, weight := 1 },
               { fromNode := c5N2, toNode := c5N4, weight := 1 },
               { fromNode := c5N1, toNode := c5N3, weight := 1 },
               { fromNode := c5N3, toNode := c5N4, weight := 1 } ] }

/-! ### Vocabulary and example inputs for the cost-engine claims -/

/-- A dependency chain leaving an endpoint: each link is a declared
dependency matching the current endpoint, and every link but the last
resolves (service by name, endpoint by path under method "GET") to the
endpoint the next link leaves from. -/
inductive DepChain (cg : CallGraph) : Endpoint → List Dependency → Prop where
  | single {ep d} (hmem : d ∈ cg.dependencies) (hmatch : depMatches ep d) :
      DepChain cg ep [d]
  | cons {ep d ds te} (hmem : d ∈ cg.dependencies) (hmatch : depMatches ep d)
      (hres : resolveTarget cg d = some te) (htail : DepChain cg te ds) :
      DepChain cg ep (d :: ds)

/-- The cost model of the C1 examples: CPU at 5 per core-hour, all other
prices zero. -/
def c1Model : CostModel :=
  { cpuCostPerCoreHour := 5, memoryCostPerGBHour := 0, networkCostPerGB := 0,
    diskCostPerGBHour := 0, requestCost := 0, provider := "aws", region := "r" }

def c1EpA : Endpoint := { path := "/a", method := "GET", serviceName := "A" }

def c1EpX : Endpoint := { path := "/x", method := "GET", serviceName := "B" }

/-- Two services; service A's endpoint depends on service B's endpoint
with weight 2. -/
def c1Graph : CallGraph :=
  { services := [ { name := "A", endpoints := [c1EpA] },
                  { name := "B", endpoints := [c1EpX] } ],
    dependencies := [ { fromService := "A", fromEndpoint := "/a",
                        toService := "B", toEndpoint := "/x",
                        callType := "http", weight := 2 } ] }

/-- Metrics giving B's endpoint one CPU core (direct cost 5 over one
hour) and service A no metrics at all. -/
def c1Snapshot : MetricsSnapshot :=
  { services := [ ("B",
      { serviceName := "B",
        endpoints := [ ("/x:GET",
          { resource := some { cpuCores := 1, memoryMB := 0, networkInMB := 0,
                               networkOutMB := 0, diskReadMB := 0, diskWriteMB := 0 },
            performance := none } ) ] } ) ] }

def c1Report : CostReport :=
  (CalculateCosts c1Model c1Graph c1Snapshot { start := 0, stop := 1 }).1

def c1wEpA : Endpoint := { path := "/a", method := "GET", serviceName := "S" }

def c1wDep1 : Dependency :=
  { fromService := "S", fromEndpoint := "/a", toService := "S",
    toEndpoint := "/b", callType := "internal", weight := 2 }

def c1wDep2 : Dependency :=
  { fromService := "S", fromEndpoint := "/b", toService := "S",
    toEndpoint := "/c", callType := "internal", weight := 3 }

def c1wEpB : Endpoint := { path := "/b", method := "GET", serviceName := "S" }

def c1wEpC : Endpoint := { path := "/c", method := "GET", serviceName := "S" }

/-- A single service whose endpoints chain /a -> /b -> /c. -/
def c1wGraph : CallGraph :=
  { services := [ { name := "S", endpoints := [c1wEpA, c1wEpB, c1wEpC] } ],
    dependencies := [c1wDep1, c1wDep2] }

def c1wCostB : EndpointCost :=
  { service := "S", endpoint := "/b", method := "GET", directCost := 7,
    downstreamCosts := [], totalCost := 7, costPerRequest := 0,
    requestCount := 0, costBreakdown := none }

def c1wCostC : EndpointCost :=
  { service := "S", endpoint := "/c", method := "GET", directCost := 11,
    downstreamCosts := [], totalCost := 11, costPerRequest := 0,
    requestCount := 0, costBreakdown := none }

/-- An endpoint-cost map carrying direct costs 7 for /b and 11 for /c. -/
def c1wCosts : List (String × EndpointCost) :=
  [("/b:GET", c1wCostB), ("/c:GET", c1wCostC)]

def c4EpA : Endpoint := { path := "/a", method := "GET", serviceName := "A" }

def c4EpB : Endpoint := { path := "/b", method := "GET", serviceName := "B" }

def c4DepAB : Dependency :=
  { fromService := "A", fromEndpoint := "/a", toService := "B",
    toEndpoint := "/b", callType := "http", weight := 1 }

def c4DepBA : Dependency :=
  { fromService := "B", fromEndpoint := "/b", toService := "A",
    toEndpoint := "/a", callType := "http", weight := 1 }

/-- A two-service dependency cycle A:/a -> B:/b -> A:/a. -/
def c4Graph : CallGraph :=
  { services := [ { name := "A", endpoints := [c4EpA] },
                  { name := "B", endpoints := [c4EpB] } ],
    dependencies := [c4DepAB, c4DepBA] }

/-- The shape every endpoint cost has after the first (direct-cost) pass:
when a breakdown is present the direct cost is the sum of its five
dimension costs, and an absent breakdown forces a zero direct cost. -/
def PhaseInv (ec : EndpointCost) : Prop :=
  (∀ cb, ec.costBreakdown = some cb →
    ec.directCost = cb.cpuCost + cb.memoryCost + cb.networkCost +
      cb.diskCost + cb.requestCost) ∧
  (ec.costBreakdown = none → ec.directCost = 0)

/-- The shape every endpoint cost has after the second (attribution)
pass: the total is direct plus the recorded downstream sum, and a present
breakdown carries that sum as downstreamTotal with total equal to the
five dimension costs plus downstreamTotal. -/
def FinalInv (ec : EndpointCost) : Prop :=
  ec.totalCost = ec.directCost + dtSum ec ∧
  (∀ cb, ec.costBreakdown = some cb →
    cb.downstreamTotal = dtSum ec ∧
    cb.total = cb.cpuCost + cb.memoryCost + cb.networkCost + cb.diskCost +
      cb.requestCost + cb.downstreamTotal) ∧
  (ec.costBreakdown = none → ec.directCost = 0)

def c8Model : CostModel :=
  { cpuCostPerCoreHour := 3, memoryCostPerGBHour := 0, networkCostPerGB := 0,
    diskCostPerGBHour := 0, requestCost := 0, provider := "aws", region := "r" }

def c8Ep : Endpoint := { path := "/e", method := "GET", serviceName := "S" }

def c8Graph : CallGraph :=
  { services := [ { name := "S", endpoints := [c8Ep] } ], dependencies := [] }

def c8Snapshot : MetricsSnapshot :=
  { services := [ ("S",
      { serviceName := "S",
        endpoints := [ ("/e:GET",
          { resource := some { cpuCores := 1, memoryMB := 0, networkInMB := 0,
                               networkOutMB := 0, diskReadMB := 0, diskWriteMB := 0 },
            performance := none } ) ] } ) ] }

def c8Cb : CostBreakdown :=
  { cpuCost := 3, memoryCost := 0, networkCost := 0, diskCost := 0,
    requestCost := 0, downstreamTotal := 0, total := 3 }

def c8Ec : EndpointCost :=
  { service := "S", endpoint := "/e", method := "GET", directCost := 3,
    downstreamCosts := [], totalCost := 3, costPerRequest := 0,
    requestCount := 0, costBreakdown := some c8Cb }

def c8Sc : ServiceCost :=
  { serviceName := "S", endpoints := [("/e:GET", c8Ec)], totalCost := 3,
    directCost := 3, attributedCost := 0 }

def c6Model : CostModel :=
  { cpuCostPerCoreHour := 1, memoryCostPerGBHour := 0, networkCostPerGB := 0,
    diskCostPerGBHour := 0, requestCost := 0, provider := "aws", region := "r" }

def c6EpA : Endpoint := { path := "/a", method := "GET", serviceName := "S" }

def c6EpB : Endpoint := { path := "/b", method := "GET", serviceName := "S" }

def c6Dep : Dependency :=
  { fromService := "S", fromEndpoint := "/a", toService := "S",
    toEndpoint := "/b", callType := "internal", weight := 6 }

/-- One service whose /a endpoint calls its /b endpoint six times per
request. -/
def c6Graph : CallGraph :=
  { services := [ { name := "S", endpoints := [c6EpA, c6EpB] } ],
    dependencies := [c6Dep] }

def c6Res : ResourceMetrics :=
  { cpuCores := 1, memoryMB := 0, networkInMB := 0, networkOutMB := 0,
    diskReadMB := 0, diskWriteMB := 0 }

def c6Metric : EndpointMetrics :=
  { resource := some c6Res, performance := none }

def c6Snapshot : MetricsSnapshot :=
  { services := [ ("S",
      { serviceName := "S",
        endpoints := [("/a:GET", c6Metric), ("/b:GET", c6Metric)] } ) ] }

def c6CbA : CostBreakdown :=
  { cpuCost := 1, memoryCost := 0, networkCost := 0, diskCost := 0,
    requestCost := 0, downstreamTotal := 6, total := 7 }

def c6CbB : CostBreakdown :=
  { cpuCost := 1, memoryCost := 0, networkCost := 0, diskCost := 0,
    requestCost := 0, downstreamTotal := 0, total := 1 }

def c6Dc : DownstreamCost :=
  { service := "S", endpoint := "/b", cost := 6, callsPerRequest := 6,
    depth := 1 }

def c6EcA : EndpointCost :=
  { service := "S", endpoint := "/a", method := "GET", directCost := 1,
    downstreamCosts := [c6Dc], totalCost := 7, costPerRequest := 0,
    requestCount := 0, costBreakdown := some c6CbA }

def c6EcB : EndpointCost :=
  { service := "S", endpoint := "/b", method := "GET", directCost := 1,
    downstreamCosts := [], totalCost := 1, costPerRequest := 0,
    requestCount := 0, costBreakdown := some c6CbB }

def c6Sc : ServiceCost :=
  { serviceName := "S", endpoints := [("/a:GET", c6EcA), ("/b:GET", c6EcB)],
    totalCost := 8, directCost := 2, attributedCost := 6 }

def c9Model : CostModel :=
  { cpuCostPerCoreHour := 0.05, memoryCostPerGBHour := 0.01,
    networkCostPerGB := 0.09, diskCostPerGBHour := 0, requestCost := 0,
    provider := "aws", region := "us-east-1" }

def c9Sc1 : ServiceCost :=
  { serviceName := "service-1", endpoints := [], totalCost := 10,
    directCost := 0, attributedCost := 0 }

def c9Sc2 : ServiceCost :=
  { serviceName := "service-2", endpoints := [], totalCost := 20,
    directCost := 0, attributedCost := 0 }

def c9Sc3 : ServiceCost :=
  { serviceName := "service-3", endpoints := [], totalCost := 15.5,
    directCost := 0, attributedCost := 0 }

def c9Graph : CallGraph :=
  { services := [ { name := "A", endpoints := [] },
                  { name := "B", endpoints := [] } ],
    dependencies := [] }

/-! ### Association-list and graph-engine lemmas, claims C3 and C5 -/

theorem lookupA_mem {α : Type} {l : List (String × α)} {k : String} {v : α}
    (h : lookupA l k = some v) : (k, v) ∈ l := by
  induction l with
  | nil => simp [lookupA] at h
  | cons hd tl ih =>
      obtain ⟨a, b⟩ := hd
      unfold lookupA at h
      by_cases hk : a = k
      · simp [hk] at h
        subst hk
        subst h
        exact List.mem_cons_self _ _
      · simp [hk] at h
        exact List.mem_cons_of_mem _ (ih h)

theorem mem_insertA {α : Type} {l : List (String × α)} {k : String} {v : α}
    {kv : String × α} (h : kv ∈ insertA l k v) : kv ∈ l ∨ kv = (k, v) := by
  induction l with
  | nil => simp [insertA] at h; simp [h]
  | cons hd tl ih =>
      unfold insertA at h
      by_cases hk : hd.1 = k
      · simp [hk] at h
        rcases h with h | h
        · right; simp [h]
        · left; exact List.mem_cons_of_mem _ h
      · simp [hk] at h
        rcases h with h | h
        · left; simp [h]
        · rcases ih h with h' | h'
          · left; exact List.mem_cons_of_mem _ h'
          · right; exact h'

theorem keysA_insertA {α : Type} (l : List (String × α)) (k : String) (v : α) :
    keysA (insertA l k v) = keysA l ∨ keysA (insertA l k v) = keysA l ++ [k] := by
  induction l with
  | nil => right; simp [insertA, keysA]
  | cons hd tl ih =>
      unfold insertA
      by_cases hk : hd.1 = k
      · left; simp [hk, keysA]
      · rcases ih with h | h
        · left; simp [hk, keysA] at h ⊢; exact h
        · right; simp [hk, keysA] at h ⊢; exact h

theorem keysA_insertA_nodup {α : Type} {l : List (String × α)} {k : String}
    {v : α} (h : (keysA l).Nodup) : (keysA (insertA l k v)).Nodup := by
  induction l with
  | nil => simp [insertA, keysA]
  | cons hd tl ih =>
      obtain ⟨a, b⟩ := hd
      rw [keysA, List.map_cons, List.nodup_cons] at h
      by_cases hk : a = k
      · rw [show insertA ((a, b) :: tl) k v = (k, v) :: tl from by simp [insertA, hk]]
        rw [keysA, List.map_cons, List.nodup_cons]
        exact ⟨hk ▸ h.1, h.2⟩
      · rw [show insertA ((a, b) :: tl) k v = (a, b) :: insertA tl k v from by
            simp [insertA, hk]]
        rw [keysA, List.map_cons, List.nodup_cons]
        refine ⟨?_, ih h.2⟩
        rcases keysA_insertA tl k v with he | he
        · rw [show (insertA tl k v).map Prod.fst = keysA (insertA tl k v) from rfl, he]
          exact h.1
        · rw [show (insertA tl k v).map Prod.fst = keysA (insertA tl k v) from rfl, he]
          intro hmem
          rcases List.mem_append.mp hmem with hm | hm
          · exact h.1 hm
          · simp at hm
            exact hk hm

theorem mem_insertA_nodup {α : Type} {l : List (String × α)} {k : String}
    {v : α} {kv : String × α} (hn : (keysA l).Nodup)
    (h : kv ∈ insertA l k v) : (kv ∈ l ∧ kv.1 ≠ k) ∨ kv = (k, v) := by
  induction l with
  | nil => simp [insertA] at h; simp [h]
  | cons hd tl ih =>
      obtain ⟨a, b⟩ := hd
      rw [keysA, List.map_cons, List.nodup_cons] at hn
      unfold insertA at h
      by_cases hk : a = k
      · simp [hk] at h
        rcases h with h | h
        · right; simp [h]
        · left
          refine ⟨List.mem_cons_of_mem _ h, fun hkv => ?_⟩
          have hm : kv.1 ∈ List.map Prod.fst tl := List.mem_map_of_mem Prod.fst h
          rw [hkv, ← hk] at hm
          exact hn.1 hm
      · simp [hk] at h
        rcases h with h | h
        · left
          constructor
          · simp [h]
          · rw [h]
            exact hk
        · rcases ih hn.2 h with ⟨h1, h2⟩ | h'
          · exact Or.inl ⟨List.mem_cons_of_mem _ h1, h2⟩
          · exact Or.inr h'

theorem lookupA_append {α : Type} (l1 l2 : List (String × α)) (k : String) :
    lookupA (l1 ++ l2) k =
      match lookupA l1 k with
      | some v => some v
      | none => lookupA l2 k := by
  induction l1 with
  | nil => simp [lookupA]
  | cons hd tl ih =>
      by_cases hk : hd.1 = k
      · simp [lookupA, hk]
      · simpa [lookupA, hk] using ih

theorem insertA_of_lookupA_none {α : Type} {l : List (String × α)} {k : String}
    (v : α) (h : lookupA l k = none) : insertA l k v = l ++ [(k, v)] := by
  induction l with
  | nil => simp [insertA]
  | cons hd tl ih =>
      unfold lookupA at h
      by_cases hk : hd.1 = k
      · simp [hk] at h
      · simp [hk] at h
        simp [insertA, hk, ih h]

/-! ### Claim C2: the direct-cost formulas -/

/-- C2.  With a metrics entry present (resource and performance metrics
and a cost model), the breakdown satisfies the five pricing formulas —
the network cost carrying no duration factor — and the total is their
sum; the four scenario figures of the spec are reproduced exactly, the
network figure to within 10^-6 of the quoted 0.013184. -/
theorem NewCostBreakdown_formulas :
    (∀ (m : ResourceMetrics) (p : PerformanceMetrics) (c : CostModel) (H : ℚ),
      (NewCostBreakdown (some m) (some p) (some c) H).cpuCost =
          m.cpuCores * c.cpuCostPerCoreHour * H ∧
      (NewCostBreakdown (some m) (some p) (some c) H).memoryCost =
          m.memoryMB / 1024 * c.memoryCostPerGBHour * H ∧
      (NewCostBreakdown (some m) (some p) (some c) H).networkCost =
          (m.networkInMB + m.networkOutMB) / 1024 * c.networkCostPerGB ∧
      (NewCostBreakdown (some m) (some p) (some c) H).diskCost =
          (m.diskReadMB + m.diskWriteMB) / 1024 * c.diskCostPerGBHour * H ∧
      (NewCostBreakdown (some m) (some p) (some c) H).requestCost =
          p.requestRate * c.requestCost * H * 3600 ∧
      (NewCostBreakdown (some m) (some p) (some c) H).total =
          (NewCostBreakdown (some m) (some p) (some c) H).cpuCost +
          (NewCostBreakdown (some m) (some p) (some c) H).memoryCost +
          (NewCostBreakdown (some m) (some p) (some c) H).networkCost +
          (NewCostBreakdown (some m) (some p) (some c) H).diskCost +
          (NewCostBreakdown (some m) (some p) (some c) H).requestCost) ∧
    ((NewCostBreakdown
        (some { cpuCores := 2, memoryMB := 2048, networkInMB := 100,
                networkOutMB := 50, diskReadMB := 0, diskWriteMB := 0 })
        (some { requestRate := 100, errorRate := 0 })
        (some { cpuCostPerCoreHour := 0.05, memoryCostPerGBHour := 0.01,
                networkCostPerGB := 0.09, diskCostPerGBHour := 0,
                requestCost := 0.0000002, provider := "aws", region := "us-east-1" })
        1).cpuCost = 0.10 ∧
      (NewCostBreakdown
        (some { cpuCores := 2, memoryMB := 2048, networkInMB := 100,
                networkOutMB := 50, diskReadMB := 0, diskWriteMB := 0 })
        (some { requestRate := 100, errorRate := 0 })
        (some { cpuCostPerCoreHour := 0.05, memoryCostPerGBHour := 0.01,
                networkCostPerGB := 0.09, diskCostPerGBHour := 0,
                requestCost := 0.0000002, provider := "aws", region := "us-east-1" })
        1).memoryCost = 0.02 ∧
      (NewCostBreakdown
        (some { cpuCores := 2, memoryMB := 2048, networkInMB := 100,
                networkOutMB := 50, diskReadMB := 0, diskWriteMB := 0 })
        (some { requestRate := 100, errorRate := 0 })
        (some { cpuCostPerCoreHour := 0.05, memoryCostPerGBHour := 0.01,
                networkCostPerGB := 0.09, diskCostPerGBHour := 0,
                requestCost := 0.0000002, provider := "aws", region := "us-east-1" })
        1).networkCost = 0.01318359375 ∧
      |(NewCostBreakdown
        (some { cpuCores := 2, memoryMB := 2048, networkInMB := 100,
                networkOutMB := 50, diskReadMB := 0, diskWriteMB := 0 })
        (some { requestRate := 100, errorRate := 0 })
        (some { cpuCostPerCoreHour := 0.05, memoryCostPerGBHour := 0.01,
                networkCostPerGB := 0.09, diskCostPerGBHour := 0,
                requestCost := 0.0000002, provider := "aws", region := "us-east-1" })
        1).networkCost - 0.013184| < 0.000001 ∧
      (NewCostBreakdown
        (some { cpuCores := 2, memoryMB := 2048, networkInMB := 100,
                networkOutMB := 50, diskReadMB := 0, diskWriteMB := 0 })
        (some { requestRate := 100, errorRate := 0 })
        (some { cpuCostPerCoreHour := 0.05, memoryCostPerGBHour := 0.01,
                networkCostPerGB := 0.09, diskCostPerGBHour := 0,
                requestCost := 0.0000002, provider := "aws", region := "us-east-1" })
        1).requestCost = 0.072) := by
  constructor
  · intro m p c H
    refine ⟨rfl, rfl, rfl, rfl, rfl, rfl⟩
  · refine ⟨?_, ?_, ?_, ?_, ?_⟩ <;>
      simp [NewCostBreakdown] <;> norm_num [abs_lt]

/-- C7.  An endpoint without a matching metrics entry (missing service
metrics, missing endpoint key, or missing resource data) does not fail:
it yields the zero-valued endpoint cost — zero direct, total, per-request
and request figures, no downstream entries and no breakdown, so every
per-dimension cost reads as zero. -/
theorem calculateEndpointCost_missing_metrics (c : CostModel) (ep : Endpoint)
    (sm : Option ServiceMetrics) (H : ℚ) (h : noUsableMetrics sm ep) :
    calculateEndpointCost c ep sm H =
      { service := ep.serviceName, endpoint := ep.path, method := ep.method,
        directCost := 0, downstreamCosts := [], totalCost := 0,
        costPerRequest := 0, requestCount := 0, costBreakdown := none } := by
  unfold calculateEndpointCost
  unfold noUsableMetrics at h
  match hsm : sm with
  | none => rfl
  | some s =>
      simp only
      match hl : lookupA s.endpoints (epKey ep) with
      | none => rfl
      | some em =>
          simp only [hsm, hl] at h
          simp [h]

/-- Witness for C7 at a concrete endpoint with no service metrics. -/
theorem calculateEndpointCost_missing_metrics_witness :
    calculateEndpointCost
        { cpuCostPerCoreHour := 1, memoryCostPerGBHour := 1, networkCostPerGB := 1,
          diskCostPerGBHour := 1, requestCost := 1, provider := "aws", region := "r" }
        { path := "/p", method := "GET", serviceName := "svc" } none 2 =
      { service := "svc", endpoint := "/p", method := "GET",
        directCost := 0, downstreamCosts := [], totalCost := 0,
        costPerRequest := 0, requestCount := 0, costBreakdown := none } :=
  calculateEndpointCost_missing_metrics _ _ none 2 trivial

theorem getNode_eq_some {g : Graph} {u : String} {n : Node}
    (h : g.getNode u = some n) : n ∈ g.nodes ∧ n.id = u := by
  refine ⟨List.mem_of_find?_eq_some h, ?_⟩
  have := List.find?_some h
  simpa using this

theorem getNode_isSome_of_mem {g : Graph} {n : Node} (hn : n ∈ g.nodes) :
    ∃ m, g.getNode n.id = some m ∧ m.id = n.id ∧ m ∈ g.nodes := by
  cases hfind : g.getNode n.id with
  | none =>
      exfalso
      have := List.find?_eq_none.mp hfind n hn
      simp at this
  | some m =>
      obtain ⟨hm, hid⟩ := getNode_eq_some hfind
      exact ⟨m, rfl, hid, hm⟩

theorem mem_getOutgoingEdges {g : Graph} {n : Node} {e : Edge} :
    e ∈ g.getOutgoingEdges n ↔ e ∈ g.edges ∧ e.fromNode.id = n.id := by
  unfold Graph.getOutgoingEdges
  rw [List.mem_filter]
  simp

theorem edgeRel_left_mem {g : Graph} (hwf : WFGraph g) {u v : String}
    (h : EdgeRel g u v) : u ∈ nodeIds g := by
  obtain ⟨e, he, hef, _⟩ := h
  exact hef ▸ List.mem_map_of_mem _ (hwf.2 e he).1

theorem edgeRel_right_mem {g : Graph} (hwf : WFGraph g) {u v : String}
    (h : EdgeRel g u v) : v ∈ nodeIds g := by
  obtain ⟨e, he, _, het⟩ := h
  exact het ▸ List.mem_map_of_mem _ (hwf.2 e he).2

theorem unvisCount_mono {g : Graph} {V V' : List String} (h : V ⊆ V') :
    unvisCount g V' ≤ unvisCount g V := by
  unfold unvisCount
  apply List.Sublist.length_le
  apply List.monotone_filter_right
  intro x hx
  simp only [decide_eq_true_eq] at hx ⊢
  exact fun hc => hx (h hc)

theorem unvisCount_cons_lt {g : Graph} {V : List String} {u : String}
    (hu : u ∈ nodeIds g) (hnv : u ∉ V) :
    unvisCount g (u :: V) < unvisCount g V := by
  unfold unvisCount
  have hsub : ((nodeIds g).filter (fun x => x ∉ u :: V)).Sublist
      ((nodeIds g).filter (fun x => x ∉ V)) := by
    apply List.monotone_filter_right
    intro x hx
    simp only [decide_eq_true_eq, List.mem_cons] at hx ⊢
    exact fun hc => hx (Or.inr hc)
  refine Nat.lt_of_le_of_ne hsub.length_le (fun heqlen => ?_)
  have heq := hsub.eq_of_length heqlen
  have hmem : u ∈ (nodeIds g).filter (fun x => x ∉ V) :=
    List.mem_filter.mpr ⟨hu, by simpa using hnv⟩
  rw [← heq] at hmem
  have := (List.mem_filter.mp hmem).2
  simp at this

theorem unvisCount_le_length (g : Graph) (V : List String) :
    unvisCount g V ≤ g.nodes.length := by
  unfold unvisCount
  calc ((nodeIds g).filter _).length ≤ (nodeIds g).length :=
        (List.filter_sublist _).length_le
    _ = g.nodes.length := List.length_map _ _

theorem hasCycleDFSList_mono (dfs : String → List String → List String → Bool × List String)
    (hdfs : ∀ v V S, V ⊆ (dfs v V S).2) (recStack : List String) :
    ∀ (edges : List Edge) (visited : List String),
      visited ⊆ (hasCycleDFSList dfs recStack edges visited).2 := by
  intro edges
  induction edges with
  | nil => intro visited; exact fun x hx => hx
  | cons e rest ih =>
      intro visited
      unfold hasCycleDFSList
      by_cases hv : e.toNode.id ∈ visited
      · rw [if_pos hv]
        by_cases hs : e.toNode.id ∈ recStack
        · rw [if_pos hs]; exact fun x hx => hx
        · rw [if_neg hs]; exact ih visited
      · rw [if_neg hv]
        cases hd : dfs e.toNode.id visited recStack with
        | mk b V' =>
            cases b with
            | true => exact fun x hx => (hd ▸ hdfs e.toNode.id visited recStack) hx
            | false =>
                intro x hx
                exact ih V' ((hd ▸ hdfs e.toNode.id visited recStack) hx)

theorem hasCycleDFS_mono (g : Graph) :
    ∀ (fuel : Nat) (u : String) (visited recStack : List String),
      visited ⊆ (hasCycleDFS g fuel u visited recStack).2 := by
  intro fuel
  induction fuel with
  | zero => intro u visited recStack; exact fun x hx => hx
  | succ fuel ih =>
      intro u visited recStack
      unfold hasCycleDFS
      cases g.getNode u with
      | none => exact fun x hx => List.mem_cons_of_mem _ hx
      | some node =>
          intro x hx
          exact hasCycleDFSList_mono _ (fun v V S => ih v V S) _ _ _
            (List.mem_cons_of_mem _ hx)

theorem hasCycleDFSList_sound (g : Graph)
    (dfs : String → List String → List String → Bool × List String)
    (u : String) (recStack : List String)
    (hreach : ∀ t ∈ recStack, Relation.ReflTransGen (EdgeRel g) t u)
    (hdfs : ∀ v visited', EdgeRel g u v →
      (dfs v visited' recStack).1 = true → Cyclic g) :
    ∀ (edges : List Edge) (visited : List String),
      (∀ e ∈ edges, e ∈ g.edges ∧ e.fromNode.id = u) →
      (hasCycleDFSList dfs recStack edges visited).1 = true → Cyclic g := by
  intro edges
  induction edges with
  | nil => intro visited _ h; simp [hasCycleDFSList] at h
  | cons e rest ih =>
      intro visited hedges h
      have he := hedges e (List.mem_cons_self _ _)
      have hrel : EdgeRel g u e.toNode.id := ⟨e, he.1, he.2, rfl⟩
      unfold hasCycleDFSList at h
      by_cases hv : e.toNode.id ∈ visited
      · rw [if_pos hv] at h
        by_cases hs : e.toNode.id ∈ recStack
        · refine ⟨e.toNode.id,
            Relation.TransGen.tail' (hreach _ hs) hrel⟩
        · rw [if_neg hs] at h
          exact ih visited (fun e' he' => hedges e' (List.mem_cons_of_mem _ he')) h
      · rw [if_neg hv] at h
        cases hd : dfs e.toNode.id visited recStack with
        | mk b V' =>
            rw [hd] at h
            cases b with
            | true => exact hdfs e.toNode.id visited hrel (by rw [hd])
            | false =>
                exact ih V' (fun e' he' => hedges e' (List.mem_cons_of_mem _ he')) h

theorem hasCycleDFS_sound (g : Graph) :
    ∀ (fuel : Nat) (u : String) (visited recStack : List String),
      (∀ t ∈ recStack, Relation.ReflTransGen (EdgeRel g) t u) →
      (hasCycleDFS g fuel u visited recStack).1 = true → Cyclic g := by
  intro fuel
  induction fuel with
  | zero => intro u visited recStack _ h; simp [hasCycleDFS] at h
  | succ fuel ih =>
      intro u visited recStack hreach h
      unfold hasCycleDFS at h
      cases hn : g.getNode u with
      | none => rw [hn] at h; simp at h
      | some node =>
          rw [hn] at h
          obtain ⟨hnmem, hnid⟩ := getNode_eq_some hn
          refine hasCycleDFSList_sound g (hasCycleDFS g fuel) u (u :: recStack)
            ?_ ?_ (g.getOutgoingEdges node) (u :: visited) ?_ h
          · intro t ht
            rcases List.mem_cons.mp ht with ht | ht
            · exact ht ▸ Relation.ReflTransGen.refl
            · exact hreach t ht
          · intro v visited' hrel hv
            refine ih v visited' (u :: recStack) ?_ hv
            intro t ht
            rcases List.mem_cons.mp ht with ht | ht
            · exact ht ▸ Relation.ReflTransGen.single hrel
            · exact (hreach t ht).tail hrel
          · intro e he
            have := mem_getOutgoingEdges.mp he
            exact ⟨this.1, by rw [this.2, hnid]⟩

theorem hasCycleRoots_sound (g : Graph) :
    ∀ (roots : List Node) (visited : List String),
      hasCycleRoots g roots visited = true → Cyclic g := by
  intro roots
  induction roots with
  | nil => intro visited h; simp [hasCycleRoots] at h
  | cons n rest ih =>
      intro visited h
      unfold hasCycleRoots at h
      by_cases hv : n.id ∈ visited
      · rw [if_pos hv] at h
        exact ih visited h
      · rw [if_neg hv] at h
        cases hd : hasCycleDFS g (g.nodes.length + 1) n.id visited [] with
        | mk b V' =>
            rw [hd] at h
            cases b with
            | true =>
                exact hasCycleDFS_sound g (g.nodes.length + 1) n.id visited []
                  (by simp) (by rw [hd])
            | false => exact ih V' h

/-- Soundness of cycle detection: a true result exhibits a real cycle. -/
theorem hasCycle_sound (g : Graph) (h : g.HasCycle = true) : Cyclic g :=
  hasCycleRoots_sound g g.nodes [] h

theorem getNode_isSome_of_id_mem {g : Graph} {u : String}
    (hu : u ∈ nodeIds g) :
    ∃ m, g.getNode u = some m ∧ m.id = u ∧ m ∈ g.nodes := by
  obtain ⟨n, hn, hid⟩ := List.mem_map.mp hu
  obtain ⟨m, hm, hmid, hmmem⟩ := getNode_isSome_of_mem hn
  exact ⟨m, by rw [← hid]; exact hm, by rw [hmid, hid], hmmem⟩

theorem hasCycleDFSList_complete (g : Graph) (hwf : WFGraph g) (fuel : Nat)
    (u : String) (recStack : List String)
    (hdfs : ∀ v V, v ∈ nodeIds g → v ∉ V → (u :: recStack) ⊆ V →
      unvisCount g V < fuel → NoCycleOff g V (u :: recStack) →
      (hasCycleDFS g fuel v V (u :: recStack)).1 = false →
      V ⊆ (hasCycleDFS g fuel v V (u :: recStack)).2 ∧
      v ∈ (hasCycleDFS g fuel v V (u :: recStack)).2 ∧
      NoCycleOff g (hasCycleDFS g fuel v V (u :: recStack)).2 (u :: recStack)) :
    ∀ (edges : List Edge) (Vc : List String),
      (∀ e ∈ edges, e ∈ g.edges ∧ e.fromNode.id = u) →
      (u :: recStack) ⊆ Vc →
      unvisCount g Vc < fuel →
      NoCycleOff g Vc (u :: recStack) →
      (hasCycleDFSList (hasCycleDFS g fuel) (u :: recStack) edges Vc).1 = false →
      Vc ⊆ (hasCycleDFSList (hasCycleDFS g fuel) (u :: recStack) edges Vc).2 ∧
      NoCycleOff g (hasCycleDFSList (hasCycleDFS g fuel) (u :: recStack) edges Vc).2
        (u :: recStack) ∧
      (∀ e ∈ edges, ¬ Relation.TransGen (EdgeRel g) e.toNode.id e.toNode.id) := by
  intro edges
  induction edges with
  | nil =>
      intro Vc _ _ _ hinv _
      exact ⟨fun x hx => hx, hinv, by simp⟩
  | cons e rest ih =>
      intro Vc hedges hstack hcount hinv hfalse
      have he := hedges e (List.mem_cons_self _ _)
      by_cases hv : e.toNode.id ∈ Vc
      · by_cases hs : e.toNode.id ∈ u :: recStack
        · have heq : hasCycleDFSList (hasCycleDFS g fuel) (u :: recStack)
              (e :: rest) Vc = (true, Vc) := by
            conv_lhs => unfold hasCycleDFSList
            rw [if_pos hv, if_pos hs]
          rw [heq] at hfalse
          simp at hfalse
        · have heq : hasCycleDFSList (hasCycleDFS g fuel) (u :: recStack)
              (e :: rest) Vc =
              hasCycleDFSList (hasCycleDFS g fuel) (u :: recStack) rest Vc := by
            conv_lhs => unfold hasCycleDFSList
            rw [if_pos hv, if_neg hs]
          rw [heq] at hfalse ⊢
          have hres := ih Vc (fun e' he' => hedges e' (List.mem_cons_of_mem _ he'))
            hstack hcount hinv hfalse
          refine ⟨hres.1, hres.2.1, ?_⟩
          intro e' he'
          rcases List.mem_cons.mp he' with he' | he'
          · exact he' ▸ hinv _ hv hs
          · exact hres.2.2 e' he'
      · have hto_nodeIds : e.toNode.id ∈ nodeIds g :=
          List.mem_map_of_mem _ (hwf.2 e he.1).2
        have hto_nstack : e.toNode.id ∉ u :: recStack :=
          fun hc => hv (hstack hc)
        cases hd : hasCycleDFS g fuel e.toNode.id Vc (u :: recStack) with
        | mk b V3 =>
            cases b with
            | true =>
                have heq : hasCycleDFSList (hasCycleDFS g fuel) (u :: recStack)
                    (e :: rest) Vc = (true, V3) := by
                  conv_lhs => unfold hasCycleDFSList
                  rw [if_neg hv, hd]
                rw [heq] at hfalse
                simp at hfalse
            | false =>
                have heq : hasCycleDFSList (hasCycleDFS g fuel) (u :: recStack)
                    (e :: rest) Vc =
                    hasCycleDFSList (hasCycleDFS g fuel) (u :: recStack) rest V3 := by
                  conv_lhs => unfold hasCycleDFSList
                  rw [if_neg hv, hd]
                rw [heq] at hfalse ⊢
                have hspec := hdfs e.toNode.id Vc hto_nodeIds hv hstack hcount hinv
                  (by rw [hd])
                rw [hd] at hspec
                obtain ⟨hgrow, hto_mem, hinv3⟩ := hspec
                have hres := ih V3 (fun e' he' => hedges e' (List.mem_cons_of_mem _ he'))
                  (fun x hx => hgrow (hstack hx))
                  (lt_of_le_of_lt (unvisCount_mono hgrow) hcount) hinv3 hfalse
                refine ⟨fun x hx => hres.1 (hgrow hx), hres.2.1, ?_⟩
                intro e' he'
                rcases List.mem_cons.mp he' with he' | he'
                · exact he' ▸ hinv3 _ hto_mem hto_nstack
                · exact hres.2.2 e' he'

theorem hasCycleDFS_complete (g : Graph) (hwf : WFGraph g) :
    ∀ (fuel : Nat) (u : String) (V S : List String),
      u ∈ nodeIds g → u ∉ V → S ⊆ V → unvisCount g V < fuel →
      NoCycleOff g V S →
      (hasCycleDFS g fuel u V S).1 = false →
      V ⊆ (hasCycleDFS g fuel u V S).2 ∧ u ∈ (hasCycleDFS g fuel u V S).2 ∧
      NoCycleOff g (hasCycleDFS g fuel u V S).2 S := by
  intro fuel
  induction fuel with
  | zero => intro u V S _ _ _ hcount _ _; omega
  | succ fuel ih =>
      intro u V S hu hnv hSV hcount hinv hfalse
      obtain ⟨node, hn, hnid, hnmem⟩ := getNode_isSome_of_id_mem hu
      unfold hasCycleDFS at hfalse ⊢
      rw [hn] at hfalse ⊢
      have hedges : ∀ e ∈ g.getOutgoingEdges node, e ∈ g.edges ∧ e.fromNode.id = u := by
        intro e he
        have := mem_getOutgoingEdges.mp he
        exact ⟨this.1, by rw [this.2, hnid]⟩
      have hstack : (u :: S) ⊆ (u :: V) := by
        intro x hx
        rcases List.mem_cons.mp hx with hx | hx
        · simp [hx]
        · exact List.mem_cons_of_mem _ (hSV hx)
      have hcount' : unvisCount g (u :: V) < fuel := by
        have h1 := unvisCount_cons_lt hu hnv
        omega
      have hinv' : NoCycleOff g (u :: V) (u :: S) := by
        intro b hb hbs
        rcases List.mem_cons.mp hb with hb | hb
        · exact absurd (hb ▸ List.mem_cons_self u S) hbs
        · exact hinv b hb (fun hc => hbs (List.mem_cons_of_mem _ hc))
      have hloop := hasCycleDFSList_complete g hwf fuel u S
        (fun v Vx h1 h2 h3 h4 h5 h6 => ih v Vx (u :: S) h1 h2 h3 h4 h5 h6)
        (g.getOutgoingEdges node) (u :: V) hedges hstack hcount' hinv' hfalse
      obtain ⟨hgrow, hinvr, hfacts⟩ := hloop
      refine ⟨fun x hx => hgrow (List.mem_cons_of_mem _ hx),
        hgrow (List.mem_cons_self _ _), ?_⟩
      intro b hb hbs
      by_cases hbu : b = u
      · subst hbu
        intro hcyc
        obtain ⟨v, hrel, hrtg⟩ := (Relation.TransGen.head'_iff).mp hcyc
        obtain ⟨e, hee, hef, het⟩ := hrel
        have hout : e ∈ g.getOutgoingEdges node :=
          mem_getOutgoingEdges.mpr ⟨hee, by rw [hef, hnid]⟩
        refine hfacts e hout ?_
        rw [het]
        exact Relation.TransGen.tail' hrtg ⟨e, hee, hef, het⟩
      · refine hinvr b hb ?_
        intro hc
        rcases List.mem_cons.mp hc with hc | hc
        · exact hbu hc
        · exact hbs hc

theorem hasCycleRoots_complete (g : Graph) (hwf : WFGraph g) :
    ∀ (roots : List Node) (visited : List String),
      (∀ n ∈ roots, n ∈ g.nodes) →
      NoCycleOff g visited [] →
      hasCycleRoots g roots visited = false →
      ∀ n ∈ roots, ¬ Relation.TransGen (EdgeRel g) n.id n.id := by
  intro roots
  induction roots with
  | nil => intro visited _ _ _ n hn; simp at hn
  | cons n rest ih =>
      intro visited hroots hinv hfalse m hm
      by_cases hv : n.id ∈ visited
      · have heq : hasCycleRoots g (n :: rest) visited =
            hasCycleRoots g rest visited := by
          conv_lhs => unfold hasCycleRoots
          rw [if_pos hv]
        rw [heq] at hfalse
        rcases List.mem_cons.mp hm with hm | hm
        · exact hm ▸ hinv _ hv (by simp)
        · exact ih visited (fun x hx => hroots x (List.mem_cons_of_mem _ hx))
            hinv hfalse m hm
      · cases hd : hasCycleDFS g (g.nodes.length + 1) n.id visited [] with
        | mk b V' =>
            cases b with
            | true =>
                have heq : hasCycleRoots g (n :: rest) visited = true := by
                  conv_lhs => unfold hasCycleRoots
                  rw [if_neg hv, hd]
                rw [heq] at hfalse
                simp at hfalse
            | false =>
                have heq : hasCycleRoots g (n :: rest) visited =
                    hasCycleRoots g rest V' := by
                  conv_lhs => unfold hasCycleRoots
                  rw [if_neg hv, hd]
                rw [heq] at hfalse
                have hspec := hasCycleDFS_complete g hwf (g.nodes.length + 1)
                  n.id visited []
                  (List.mem_map_of_mem _ (hroots n (List.mem_cons_self _ _)))
                  hv (by simp)
                  (by have := unvisCount_le_length g visited; omega)
                  hinv (by rw [hd])
                rw [hd] at hspec
                obtain ⟨_, hnv', hinv'⟩ := hspec
                rcases List.mem_cons.mp hm with hm | hm
                · exact hm ▸ hinv' _ hnv' (by simp)
                · exact ih V' (fun x hx => hroots x (List.mem_cons_of_mem _ hx))
                    (fun b hb _ => hinv' b hb (by simp)) hfalse m hm

/-- Completeness of cycle detection: a cyclic graph is detected. -/
theorem hasCycle_complete (g : Graph) (hwf : WFGraph g) (hcyc : Cyclic g) :
    g.HasCycle = true := by
  by_contra hne
  have hfalse : g.HasCycle = false := by
    cases h : g.HasCycle
    · rfl
    · exact absurd h hne
  obtain ⟨u, hu⟩ := hcyc
  obtain ⟨v, hrel, _⟩ := (Relation.TransGen.head'_iff).mp hu
  have humem : u ∈ nodeIds g := edgeRel_left_mem hwf hrel
  obtain ⟨n, hn, hnid⟩ := List.mem_map.mp humem
  exact hasCycleRoots_complete g hwf g.nodes [] (fun x hx => hx)
    (by intro b hb; simp at hb) hfalse n hn (hnid ▸ hu)

theorem cntTo_nil (v : String) : cntTo [] v = 0 := rfl

theorem cntTo_cons (e : Edge) (es : List Edge) (v : String) :
    cntTo (e :: es) v =
      (if e.toNode.id = v then 1 else 0) + cntTo es v := by
  unfold cntTo
  rw [List.filter_cons]
  by_cases h : e.toNode.id = v
  · simp [h, Nat.add_comm]
  · simp [h]

theorem lookupA_insertA_self {α : Type} (l : List (String × α)) (k : String)
    (v : α) : lookupA (insertA l k v) k = some v := by
  induction l with
  | nil => simp [insertA, lookupA]
  | cons hd tl ih =>
      unfold insertA
      by_cases hk : hd.1 = k
      · simp [hk, lookupA]
      · simp only [if_neg hk]
        unfold lookupA
        rw [if_neg hk]
        exact ih

theorem lookupA_insertA_ne {α : Type} (l : List (String × α)) (k : String)
    (v : α) (k' : String) (h : k ≠ k') :
    lookupA (insertA l k v) k' = lookupA l k' := by
  induction l with
  | nil => simp [insertA, lookupA, h]
  | cons hd tl ih =>
      obtain ⟨a, b⟩ := hd
      unfold insertA
      by_cases hk : a = k
      · subst hk
        simp [lookupA, h]
      · simp only [if_neg hk]
        unfold lookupA
        by_cases hk' : a = k'
        · rw [if_pos hk', if_pos hk']
        · rw [if_neg hk', if_neg hk']
          exact ih

theorem lookupA_bumpA_self (l : List (String × Int)) (k : String) (d : Int) :
    lookupA (bumpA l k d) k = some ((lookupA l k).getD 0 + d) := by
  induction l with
  | nil => simp [bumpA, lookupA]
  | cons hd tl ih =>
      unfold bumpA
      by_cases hk : hd.1 = k
      · simp [hk, lookupA]
      · simp only [if_neg hk]
        unfold lookupA
        rw [if_neg hk, if_neg hk]
        exact ih

theorem lookupA_bumpA_ne (l : List (String × Int)) (k : String) (d : Int)
    (k' : String) (h : k ≠ k') :
    lookupA (bumpA l k d) k' = lookupA l k' := by
  induction l with
  | nil => simp [bumpA, lookupA, h]
  | cons hd tl ih =>
      obtain ⟨a, b⟩ := hd
      unfold bumpA
      by_cases hk : a = k
      · subst hk
        simp [lookupA, h]
      · simp only [if_neg hk]
        unfold lookupA
        by_cases hk' : a = k'
        · rw [if_pos hk', if_pos hk']
        · rw [if_neg hk', if_neg hk']
          exact ih

theorem lookupA_eq_some_of_mem {α : Type} {l : List (String × α)}
    {k : String} {v : α} (hn : (keysA l).Nodup) (h : (k, v) ∈ l) :
    lookupA l k = some v := by
  induction l with
  | nil => simp at h
  | cons hd tl ih =>
      rw [keysA, List.map_cons, List.nodup_cons] at hn
      unfold lookupA
      rcases List.mem_cons.mp h with h | h
      · rw [← h]
        simp
      · by_cases hk : hd.1 = k
        · exfalso
          refine hn.1 ?_
          rw [hk]
          exact List.mem_map_of_mem Prod.fst h
        · rw [if_neg hk]
          exact ih hn.2 h

/-- Splitting a filtered count over a pointwise disjunction of disjoint
predicates. -/
theorem length_filter_split {α : Type} (l : List α) (p p1 p2 : α → Bool)
    (h : ∀ a ∈ l, (p a = true ↔ (p1 a = true ∨ p2 a = true)))
    (hdisj : ∀ a ∈ l, ¬(p1 a = true ∧ p2 a = true)) :
    (l.filter p).length = (l.filter p1).length + (l.filter p2).length := by
  induction l with
  | nil => rfl
  | cons a l ih =>
      have hh := h a (List.mem_cons_self _ _)
      have hd := hdisj a (List.mem_cons_self _ _)
      have ih' := ih (fun x hx => h x (List.mem_cons_of_mem _ hx))
        (fun x hx => hdisj x (List.mem_cons_of_mem _ hx))
      rw [List.filter_cons, List.filter_cons, List.filter_cons]
      cases hpa : p a <;> cases hp1 : p1 a <;> cases hp2 : p2 a <;>
        rw [hpa] at hh <;> rw [hp1] at hh hd <;> rw [hp2] at hh hd <;>
        simp only [Bool.false_eq_true, false_or, or_false, or_self,
          iff_true, iff_false, true_and, and_true, not_true, not_false_iff,
          if_true, if_false, List.length_cons, cond_true, cond_false] at hh hd ⊢ <;>
        omega

/-- Processing a node q moves every edge out of q from the remaining
in-degree of its target into the processed count. -/
theorem remDeg_pop (g : Graph) (P : List String) (qn : Node)
    (hq : qn.id ∉ P) (v : String) :
    remDeg g P v = remDeg g (P ++ [qn.id]) v + cntTo (g.getOutgoingEdges qn) v := by
  unfold remDeg cntTo Graph.getOutgoingEdges
  rw [List.filter_filter]
  exact length_filter_split g.edges _ _ _
    (by
      intro e _
      by_cases h1 : e.toNode.id = v <;> by_cases h2 : e.fromNode.id ∈ P <;>
        by_cases h3 : e.fromNode.id = qn.id <;>
        simp [h1, h2, h3, List.mem_append] <;> first | rfl | (exact fun hc => hq (h3 ▸ h2)) | tauto)
    (by
      intro e _
      by_cases h1 : e.toNode.id = v <;> by_cases h2 : e.fromNode.id ∈ P <;>
        by_cases h3 : e.fromNode.id = qn.id <;>
        simp [h1, h2, h3, List.mem_append])

/-- remDeg only shrinks as the processed set grows. -/
theorem remDeg_zero_mono (g : Graph) (P : List String) (q : String)
    (v : String) (h : remDeg g P v = 0) : remDeg g (P ++ [q]) v = 0 := by
  unfold remDeg at h ⊢
  rw [List.length_eq_zero, List.filter_eq_nil_iff] at h ⊢
  intro e he
  have hthis := h e he
  simp only [decide_eq_true_eq] at hthis ⊢
  intro hc
  exact hthis ⟨hc.1, fun hp => hc.2 (List.mem_append.mpr (Or.inl hp))⟩

/-- Full characterization of one pass of edge processing in Kahn's loop:
the in-degree table drops by the number of processed edges into each node,
the queue grows at the back by exactly the nodes whose count reached zero
during the pass, each of them counted once. -/
theorem kahnFold_spec (g : Graph) :
    ∀ (es : List Edge) (D : List (String × Int)) (Q : List Node)
      (d : String → Int),
      (∀ e ∈ es, e.toNode.id ∈ nodeIds g) →
      (∀ v ∈ nodeIds g, lookupA D v = some (d v)) →
      (∀ v ∈ nodeIds g,
        lookupA (es.foldl kahnEdgeStep (D, Q)).1 v =
          some (d v - (cntTo es v : Int))) ∧
      ∃ extra : List Node,
        (es.foldl kahnEdgeStep (D, Q)).2 = Q ++ extra ∧
        (∀ n ∈ extra, ∃ e ∈ es, n = e.toNode) ∧
        (∀ n ∈ extra, 1 ≤ d n.id ∧ d n.id - (cntTo es n.id : Int) ≤ 0) ∧
        (∀ v ∈ nodeIds g, d v - (cntTo es v : Int) = 0 → 1 ≤ d v →
          ∃ n ∈ extra, n.id = v) ∧
        ((extra.map (fun n => n.id)).Nodup) := by
  intro es
  induction es with
  | nil =>
      intro D Q d _ hD
      refine ⟨?_, [], by simp, by simp, by simp, ?_, by simp⟩
      · intro v hv
        rw [List.foldl_nil]
        simpa [cntTo_nil] using hD v hv
      · intro v _ h0 h1
        rw [cntTo_nil] at h0
        omega
  | cons e rest ih =>
      intro D Q d hes hD
      have hto : e.toNode.id ∈ nodeIds g := hes e (List.mem_cons_self _ _)
      have hD'self : lookupA (bumpA D e.toNode.id (-1)) e.toNode.id =
          some (d e.toNode.id - 1) := by
        rw [lookupA_bumpA_self, hD _ hto]
        norm_num
        rfl
      have hD' : ∀ v ∈ nodeIds g,
          lookupA (bumpA D e.toNode.id (-1)) v =
            some (if v = e.toNode.id then d v - 1 else d v) := by
        intro v hv
        by_cases hvk : v = e.toNode.id
        · rw [if_pos hvk, hvk]
          exact hD'self
        · rw [if_neg hvk, lookupA_bumpA_ne _ _ _ _ (fun hc => hvk hc.symm)]
          exact hD v hv
      have hcnt : ∀ v, (cntTo (e :: rest) v : Int) =
          (if e.toNode.id = v then 1 else 0) + (cntTo rest v : Int) := by
        intro v
        rw [cntTo_cons]
        by_cases hvk : e.toNode.id = v <;> simp [hvk]
      rw [List.foldl_cons]
      by_cases hz : d e.toNode.id = 1
      · have hstep : kahnEdgeStep (D, Q) e =
            (bumpA D e.toNode.id (-1), Q ++ [e.toNode]) := by
          unfold kahnEdgeStep
          rw [if_pos (by rw [hD'self, Option.some_inj]; omega)]
        rw [hstep]
        obtain ⟨hlook, extra', hQ', hmemx, hposx, hcomplx, hndx⟩ :=
          ih (bumpA D e.toNode.id (-1)) (Q ++ [e.toNode])
            (fun v => if v = e.toNode.id then d v - 1 else d v)
            (fun e' he' => hes e' (List.mem_cons_of_mem _ he')) hD'
        refine ⟨?_, e.toNode :: extra', ?_, ?_, ?_, ?_, ?_⟩
        · intro v hv
          rw [hlook v hv, hcnt v]
          by_cases hvk : v = e.toNode.id
          · rw [if_pos hvk, if_pos (by rw [hvk]), Option.some_inj]
            omega
          · rw [if_neg hvk, if_neg (fun hc => hvk hc.symm), Option.some_inj]
            omega
        · rw [hQ', List.append_assoc]
          rfl
        · intro n hn
          rcases List.mem_cons.mp hn with hn | hn
          · exact ⟨e, List.mem_cons_self _ _, hn⟩
          · obtain ⟨e', he', hne⟩ := hmemx n hn
            exact ⟨e', List.mem_cons_of_mem _ he', hne⟩
        · intro n hn
          rcases List.mem_cons.mp hn with hn | hn
          · subst hn
            rw [hcnt]
            constructor
            · omega
            · rw [if_pos rfl]
              omega
          · have hx := hposx n hn
            rw [hcnt]
            by_cases hvk : n.id = e.toNode.id
            · rw [if_pos hvk] at hx
              rw [if_pos hvk.symm]
              omega
            · rw [if_neg hvk] at hx
              rw [if_neg (fun hc => hvk hc.symm)]
              omega
        · intro v hv h0 h1
          by_cases hvk : v = e.toNode.id
          · exact ⟨e.toNode, List.mem_cons_self _ _, hvk.symm⟩
          · rw [hcnt, if_neg (fun hc => hvk hc.symm)] at h0
            obtain ⟨n, hn, hnv⟩ := hcomplx v hv (by rw [if_neg hvk]; omega)
              (by rw [if_neg hvk]; omega)
            exact ⟨n, List.mem_cons_of_mem _ hn, hnv⟩
        · rw [List.map_cons, List.nodup_cons]
          refine ⟨?_, hndx⟩
          intro hmem
          obtain ⟨n, hn, hnv⟩ := List.mem_map.mp hmem
          have hx := (hposx n hn).1
          rw [hnv, if_pos rfl] at hx
          omega
      · have hstep : kahnEdgeStep (D, Q) e = (bumpA D e.toNode.id (-1), Q) := by
          unfold kahnEdgeStep
          rw [if_neg (by rw [hD'self, Option.some_inj]; omega)]
        rw [hstep]
        obtain ⟨hlook, extra', hQ', hmemx, hposx, hcomplx, hndx⟩ :=
          ih (bumpA D e.toNode.id (-1)) Q
            (fun v => if v = e.toNode.id then d v - 1 else d v)
            (fun e' he' => hes e' (List.mem_cons_of_mem _ he')) hD'
        refine ⟨?_, extra', hQ', ?_, ?_, ?_, hndx⟩
        · intro v hv
          rw [hlook v hv, hcnt v]
          by_cases hvk : v = e.toNode.id
          · rw [if_pos hvk, if_pos (by rw [hvk]), Option.some_inj]
            omega
          · rw [if_neg hvk, if_neg (fun hc => hvk hc.symm), Option.some_inj]
            omega
        · intro n hn
          obtain ⟨e', he', hne⟩ := hmemx n hn
          exact ⟨e', List.mem_cons_of_mem _ he', hne⟩
        · intro n hn
          have hx := hposx n hn
          rw [hcnt]
          by_cases hvk : n.id = e.toNode.id
          · rw [if_pos hvk] at hx
            rw [if_pos hvk.symm]
            omega
          · rw [if_neg hvk] at hx
            rw [if_neg (fun hc => hvk hc.symm)]
            omega
        · intro v hv h0 h1
          by_cases hvk : v = e.toNode.id
          · rw [hcnt, if_pos hvk.symm] at h0
            rw [hvk] at h0 h1
            exact hcomplx v hv (by rw [if_pos hvk, hvk]; omega)
              (by rw [if_pos hvk, hvk]; omega)
          · rw [hcnt, if_neg (fun hc => hvk hc.symm)] at h0
            exact hcomplx v hv (by rw [if_neg hvk]; omega)
              (by rw [if_neg hvk]; omega)

theorem keysA_bumpA_mem {l : List (String × Int)} {k : String} (d : Int)
    (h : k ∈ keysA l) : keysA (bumpA l k d) = keysA l := by
  induction l with
  | nil => simp [keysA] at h
  | cons hd tl ih =>
      obtain ⟨a, b⟩ := hd
      unfold bumpA
      by_cases hk : a = k
      · rw [if_pos hk, keysA, keysA, List.map_cons, List.map_cons, hk]
      · rw [if_neg hk, keysA, keysA, List.map_cons, List.map_cons]
        rw [keysA, List.map_cons] at h
        rcases List.mem_cons.mp h with h | h
        · exact absurd h.symm hk
        · rw [show (bumpA tl k d).map Prod.fst = keysA (bumpA tl k d) from rfl,
            ih h]
          rfl

theorem keysA_foldl_bump (g : Graph) :
    ∀ (es : List Edge) (m : List (String × Int)),
      keysA m = nodeIds g → (∀ e ∈ es, e.toNode.id ∈ nodeIds g) →
      keysA (es.foldl (fun m e => bumpA m e.toNode.id 1) m) = nodeIds g := by
  intro es
  induction es with
  | nil => intro m hm _; exact hm
  | cons e rest ih =>
      intro m hm hes
      rw [List.foldl_cons]
      refine ih _ ?_ (fun e' he' => hes e' (List.mem_cons_of_mem _ he'))
      rw [keysA_bumpA_mem 1 (by rw [hm]; exact hes e (List.mem_cons_self _ _))]
      exact hm

theorem lookupA_map_zero (nodes : List Node) (v : String)
    (hv : v ∈ nodes.map (fun n => n.id)) :
    lookupA (nodes.map (fun n => (n.id, (0 : Int)))) v = some 0 := by
  induction nodes with
  | nil => simp at hv
  | cons n rest ih =>
      rw [List.map_cons]
      unfold lookupA
      by_cases hk : n.id = v
      · rw [if_pos hk]
      · rw [if_neg hk]
        refine ih ?_
        rw [List.map_cons] at hv
        rcases List.mem_cons.mp hv with hv | hv
        · exact absurd hv.symm hk
        · exact hv

theorem lookupA_foldl_bump (g : Graph) :
    ∀ (es : List Edge) (m : List (String × Int)) (c : String → Int),
      (∀ e ∈ es, e.toNode.id ∈ nodeIds g) →
      (∀ v ∈ nodeIds g, lookupA m v = some (c v)) →
      ∀ v ∈ nodeIds g,
        lookupA (es.foldl (fun m e => bumpA m e.toNode.id 1) m) v =
          some (c v + (cntTo es v : Int)) := by
  intro es
  induction es with
  | nil =>
      intro m c _ hm v hv
      rw [List.foldl_nil, cntTo_nil, hm v hv]
      norm_num
  | cons e rest ih =>
      intro m c hes hm v hv
      rw [List.foldl_cons]
      have hto : e.toNode.id ∈ nodeIds g := hes e (List.mem_cons_self _ _)
      have hm' : ∀ w ∈ nodeIds g, lookupA (bumpA m e.toNode.id 1) w =
          some (if w = e.toNode.id then c w + 1 else c w) := by
        intro w hw
        by_cases hwk : w = e.toNode.id
        · rw [if_pos hwk, hwk, lookupA_bumpA_self, hm _ hto]
          rfl
        · rw [if_neg hwk, lookupA_bumpA_ne _ _ _ _ (fun hc => hwk hc.symm)]
          exact hm w hw
      rw [ih (bumpA m e.toNode.id 1) _
        (fun e' he' => hes e' (List.mem_cons_of_mem _ he')) hm' v hv,
        Option.some_inj, cntTo_cons]
      by_cases hvk : v = e.toNode.id
      · rw [if_pos hvk, if_pos hvk.symm]
        push_cast
        omega
      · rw [if_neg hvk, if_neg (fun hc => hvk hc.symm)]
        push_cast
        omega

theorem remDeg_nil_eq_cntTo (g : Graph) (v : String) :
    remDeg g [] v = cntTo g.edges v := by
  unfold remDeg cntTo
  congr 1
  refine List.filter_congr ?_
  intro e _
  simp

/-- The initial in-degree table binds every node id to its total in-degree. -/
theorem kahnInDegrees_lookup (g : Graph) (hwf : WFGraph g) (v : String)
    (hv : v ∈ nodeIds g) :
    lookupA (kahnInDegrees g) v = some ((remDeg g [] v : Int)) := by
  unfold kahnInDegrees
  rw [lookupA_foldl_bump g g.edges _ (fun _ => (0 : Int))
    (fun e he => List.mem_map_of_mem _ (hwf.2 e he).2)
    (fun w hw => lookupA_map_zero g.nodes w hw) v hv,
    Option.some_inj, remDeg_nil_eq_cntTo]
  omega

theorem kahnInDegrees_keys (g : Graph) (hwf : WFGraph g) :
    keysA (kahnInDegrees g) = nodeIds g := by
  unfold kahnInDegrees
  refine keysA_foldl_bump g g.edges _ ?_
    (fun e he => List.mem_map_of_mem _ (hwf.2 e he).2)
  unfold keysA nodeIds
  rw [List.map_map]
  rfl

/-- The initial queue drawn from a table whose keys all resolve through
GetNode: its members are graph nodes, its ids are the zero-valued keys,
without repetition when the keys are unique. -/
theorem initQueue_facts (g : Graph) :
    ∀ (l : List (String × Int)),
      (∀ p ∈ l, ∃ n, g.getNode p.1 = some n ∧ n.id = p.1 ∧ n ∈ g.nodes) →
      (∀ n ∈ l.filterMap
          (fun p => if p.2 = 0 then g.getNode p.1 else none), n ∈ g.nodes) ∧
      ((l.filterMap
          (fun p => if p.2 = 0 then g.getNode p.1 else none)).map
            (fun n => n.id)).Sublist (keysA l) ∧
      (∀ v, v ∈ (l.filterMap
          (fun p => if p.2 = 0 then g.getNode p.1 else none)).map
            (fun n => n.id) ↔ (v, (0 : Int)) ∈ l) := by
  intro l
  induction l with
  | nil => exact fun _ => ⟨by simp, by simp [keysA], by simp⟩
  | cons p rest ih =>
      intro hl
      obtain ⟨n, hn, hnid, hnmem⟩ := hl p (List.mem_cons_self _ _)
      obtain ⟨hmem, hsub, hiff⟩ :=
        ih (fun q hq => hl q (List.mem_cons_of_mem _ hq))
      rw [List.filterMap_cons]
      by_cases hp : p.2 = 0
      · rw [if_pos hp, hn]
        refine ⟨?_, ?_, ?_⟩
        · intro m hm
          rcases List.mem_cons.mp hm with hm | hm
          · exact hm ▸ hnmem
          · exact hmem m hm
        · rw [List.map_cons, keysA, List.map_cons, hnid]
          exact List.Sublist.cons₂ _ hsub
        · intro v
          rw [List.map_cons, List.mem_cons, hiff, hnid, List.mem_cons]
          constructor
          · intro h
            rcases h with h | h
            · left
              exact Prod.ext h hp.symm
            · right
              exact h
          · intro h
            rcases h with h | h
            · left
              rw [← h]
            · right
              exact h
      · rw [if_neg hp]
        refine ⟨hmem, ?_, ?_⟩
        · rw [keysA, List.map_cons]
          exact List.Sublist.cons _ hsub
        · intro v
          rw [hiff, List.mem_cons]
          constructor
          · intro h
            right
            exact h
          · intro h
            rcases h with h | h
            · exfalso
              refine hp ?_
              rw [← h]
            · exact h

theorem WFGraph.id_inj {g : Graph} (hwf : WFGraph g) {x y : Node}
    (hx : x ∈ g.nodes) (hy : y ∈ g.nodes) (h : x.id = y.id) : x = y :=
  List.inj_on_of_nodup_map hwf.1 hx hy h

/-- In an acyclic well-formed graph the Kahn loop cannot starve: when every
unprocessed node still has an unprocessed predecessor, following
predecessors long enough repeats a node and exhibits a cycle. -/
theorem kahn_progress (g : Graph) (hwf : WFGraph g) (hacyc : Acyclic g)
    (P : List String)
    (hda : ∀ v ∈ nodeIds g, v ∉ P → remDeg g P v ≠ 0) :
    ∀ v ∈ nodeIds g, v ∈ P := by
  by_contra hcon
  push_neg at hcon
  obtain ⟨v0, hv0n, hv0p⟩ := hcon
  have hv0U : v0 ∈ (nodeIds g).filter (fun v => decide (v ∉ P)) :=
    List.mem_filter.mpr ⟨hv0n, by simp [hv0p]⟩
  have hpred : ∀ v ∈ (nodeIds g).filter (fun v => decide (v ∉ P)),
      ∃ u, u ∈ (nodeIds g).filter (fun v => decide (v ∉ P)) ∧ EdgeRel g u v := by
    intro v hv
    rw [List.mem_filter] at hv
    have hv2 : v ∉ P := by simpa using hv.2
    have hd := hda v hv.1 hv2
    unfold remDeg at hd
    obtain ⟨e, hee⟩ := List.exists_mem_of_length_pos (Nat.pos_of_ne_zero hd)
    rw [List.mem_filter] at hee
    have hprop := of_decide_eq_true hee.2
    refine ⟨e.fromNode.id, List.mem_filter.mpr
      ⟨edgeRel_left_mem hwf ⟨e, hee.1, rfl, hprop.1⟩, by simp [hprop.2]⟩,
      e, hee.1, rfl, hprop.1⟩
  choose pick hpickU hpickE using hpred
  let U := (nodeIds g).filter (fun v => decide (v ∉ P))
  let step : {x : String // x ∈ U} → {x : String // x ∈ U} :=
    fun p => ⟨pick p.1 p.2, hpickU p.1 p.2⟩
  let F : Nat → {x : String // x ∈ U} := fun n => step^[n] ⟨v0, hv0U⟩
  have hfE : ∀ n, EdgeRel g (F (n + 1)).1 (F n).1 := by
    intro n
    have hit : F (n + 1) = step (F n) := Function.iterate_succ_apply' step n _
    rw [hit]
    exact hpickE (F n).1 (F n).2
  have htg : ∀ d n, Relation.TransGen (EdgeRel g) (F (n + d + 1)).1 (F n).1 := by
    intro d
    induction d with
    | zero => intro n; exact Relation.TransGen.single (hfE n)
    | succ d ih => intro n; exact Relation.TransGen.head (hfE (n + d + 1)) (ih n)
  have hmapsto : ∀ i ∈ Finset.range (U.length + 1),
      (F i).1 ∈ U.toFinset := fun i _ => List.mem_toFinset.mpr (F i).2
  have hcard : U.toFinset.card < (Finset.range (U.length + 1)).card := by
    rw [Finset.card_range]
    exact Nat.lt_succ_of_le (List.toFinset_card_le U)
  obtain ⟨i, _, j, _, hij, hfij⟩ :=
    Finset.exists_ne_map_eq_of_card_lt_of_maps_to hcard hmapsto
  rcases Nat.lt_or_ge i j with hlt | hge
  · have heq : i + (j - i - 1) + 1 = j := by omega
    refine hacyc ⟨(F i).1, ?_⟩
    have := htg (j - i - 1) i
    rw [heq] at this
    rw [← hfij] at this
    exact this
  · have hlt' : j < i := Nat.lt_of_le_of_ne hge (fun hc => hij hc.symm)
    have heq : j + (i - j - 1) + 1 = i := by omega
    refine hacyc ⟨(F j).1, ?_⟩
    have := htg (i - j - 1) j
    rw [heq] at this
    rw [hfij] at this
    exact this

/-- Strict order in a list survives appending on the right. -/
theorem before_append_right {l : List Node} {u v : Node} (h : Before l u v)
    (ext : List Node) : Before (l ++ ext) u v := by
  obtain ⟨l1, l2, hl, hv⟩ := h
  exact ⟨l1, l2 ++ ext, by rw [hl, List.append_assoc, List.cons_append],
    List.mem_append.mpr (Or.inl hv)⟩

/-- Every current member comes strictly before a newly appended element. -/
theorem before_append_last {l : List Node} {u q : Node} (hu : u ∈ l) :
    Before (l ++ [q]) u q := by
  obtain ⟨s, t, hl⟩ := List.append_of_mem hu
  exact ⟨s, t ++ [q], by rw [hl, List.append_assoc, List.cons_append],
    List.mem_append.mpr (Or.inr (List.mem_cons_self _ _))⟩

theorem kahnLoop_nil (g : Graph) (fuel : Nat) (D : List (String × Int))
    (L : List Node) : kahnLoop g fuel [] D L = L := by
  cases fuel <;> rfl

theorem remDeg_eq_zero_from_mem (g : Graph) (P : List String) (v : String)
    (h : remDeg g P v = 0) :
    ∀ e ∈ g.edges, e.toNode.id = v → e.fromNode.id ∈ P := by
  unfold remDeg at h
  rw [List.length_eq_zero, List.filter_eq_nil_iff] at h
  intro e he hev
  have hthis := h e he
  simp only [decide_eq_true_eq] at hthis
  by_contra hf
  exact hthis ⟨hev, hf⟩

/-- The Kahn worklist loop, run from any state satisfying its invariant
(queued and output nodes are graph nodes, no id appears twice, the table
holds the remaining in-degrees, a node is output or queued exactly when its
remaining in-degree is zero, output nodes follow all their predecessors),
ends with a topological order of all nodes. -/
theorem kahnLoop_correct (g : Graph) (hwf : WFGraph g) (hacyc : Acyclic g) :
    ∀ (fuel : Nat) (Q : List Node) (D : List (String × Int)) (L : List Node),
      (∀ n ∈ L, n ∈ g.nodes) →
      (∀ n ∈ Q, n ∈ g.nodes) →
      ((L ++ Q).map (fun n => n.id)).Nodup →
      (∀ v ∈ nodeIds g,
        lookupA D v = some ((remDeg g (L.map (fun n => n.id)) v : Int))) →
      (∀ v ∈ nodeIds g,
        (remDeg g (L.map (fun n => n.id)) v = 0 ↔
          v ∈ (L ++ Q).map (fun n => n.id))) →
      (∀ e ∈ g.edges, e.toNode.id ∈ L.map (fun n => n.id) →
        Before L e.fromNode e.toNode) →
      g.nodes.length ≤ fuel + L.length →
      (∀ n ∈ kahnLoop g fuel Q D L, n ∈ g.nodes) ∧
      ((kahnLoop g fuel Q D L).map (fun n => n.id)).Nodup ∧
      (∀ v ∈ nodeIds g, v ∈ (kahnLoop g fuel Q D L).map (fun n => n.id)) ∧
      (∀ e ∈ g.edges, Before (kahnLoop g fuel Q D L) e.fromNode e.toNode) := by
  have hfin : ∀ (D : List (String × Int)) (L : List Node) (fuel : Nat),
      (∀ n ∈ L, n ∈ g.nodes) →
      ((L ++ ([] : List Node)).map (fun n => n.id)).Nodup →
      (∀ v ∈ nodeIds g,
        (remDeg g (L.map (fun n => n.id)) v = 0 ↔
          v ∈ (L ++ ([] : List Node)).map (fun n => n.id))) →
      (∀ e ∈ g.edges, e.toNode.id ∈ L.map (fun n => n.id) →
        Before L e.fromNode e.toNode) →
      (∀ n ∈ kahnLoop g fuel [] D L, n ∈ g.nodes) ∧
      ((kahnLoop g fuel [] D L).map (fun n => n.id)).Nodup ∧
      (∀ v ∈ nodeIds g, v ∈ (kahnLoop g fuel [] D L).map (fun n => n.id)) ∧
      (∀ e ∈ g.edges, Before (kahnLoop g fuel [] D L) e.fromNode e.toNode) := by
    intro D L fuel hL hnd hzero hbefore
    rw [kahnLoop_nil]
    rw [List.append_nil] at hnd hzero
    have hcov : ∀ v ∈ nodeIds g, v ∈ L.map (fun n => n.id) := by
      refine kahn_progress g hwf hacyc (L.map (fun n => n.id)) ?_
      intro v hv hvp hz
      exact hvp ((hzero v hv).mp hz)
    refine ⟨hL, hnd, hcov, ?_⟩
    intro e he
    exact hbefore e he
      (hcov e.toNode.id (List.mem_map_of_mem _ (hwf.2 e he).2))
  intro fuel
  induction fuel with
  | zero =>
      intro Q D L hL hQ hnd hdeg hzero hbefore hfuel
      cases Q with
      | nil => exact hfin D L 0 hL hnd hzero hbefore
      | cons q rest =>
          exfalso
          have hq : q ∈ g.nodes := hQ q (List.mem_cons_self _ _)
          have hLsub : (L.map (fun n => n.id)).toFinset ⊆
              (nodeIds g).toFinset := by
            intro v hv
            rw [List.mem_toFinset] at hv ⊢
            obtain ⟨n, hn, hnv⟩ := List.mem_map.mp hv
            exact hnv ▸ List.mem_map_of_mem _ (hL n hn)
          have hndL : (L.map (fun n => n.id)).Nodup :=
            ((List.nodup_append.mp (by rwa [List.map_append] at hnd)).1)
          have hndI : (nodeIds g).Nodup := hwf.1
          have hcard : (nodeIds g).toFinset.card ≤
              (L.map (fun n => n.id)).toFinset.card := by
            rw [List.toFinset_card_of_nodup hndL,
              List.toFinset_card_of_nodup hndI, List.length_map]
            have hlen : (nodeIds g).length = g.nodes.length :=
              List.length_map _ _
            omega
          have heq := Finset.eq_of_subset_of_card_le hLsub hcard
          have hqL : q.id ∈ L.map (fun n => n.id) := by
            rw [← List.mem_toFinset, heq, List.mem_toFinset]
            exact List.mem_map_of_mem _ hq
          rw [List.map_append] at hnd
          have := (List.nodup_append.mp hnd).2.2
          exact this hqL (by
            rw [List.map_cons]
            exact List.mem_cons_self _ _)
  | succ fuel ih =>
      intro Q D L hL hQ hnd hdeg hzero hbefore hfuel
      cases Q with
      | nil => exact hfin D L (fuel + 1) hL hnd hzero hbefore
      | cons q rest =>
          have hq : q ∈ g.nodes := hQ q (List.mem_cons_self _ _)
          have hun : kahnLoop g (fuel + 1) (q :: rest) D L =
              kahnLoop g fuel
                ((g.getOutgoingEdges q).foldl kahnEdgeStep (D, rest)).2
                ((g.getOutgoingEdges q).foldl kahnEdgeStep (D, rest)).1
                (L ++ [q]) := rfl
          rw [hun]
          have hes : ∀ e ∈ g.getOutgoingEdges q, e.toNode.id ∈ nodeIds g := by
            intro e he
            have hee : e ∈ g.edges := List.mem_of_mem_filter he
            exact List.mem_map_of_mem _ (hwf.2 e hee).2
          obtain ⟨hlook, extra, hQ2, hmemx, hposx, hcomplx, hndx⟩ :=
            kahnFold_spec g (g.getOutgoingEdges q) D rest
              (fun v => (remDeg g (L.map (fun n => n.id)) v : Int)) hes hdeg
          have hqP : q.id ∉ L.map (fun n => n.id) := by
            rw [List.map_append] at hnd
            intro hc
            exact (List.nodup_append.mp hnd).2.2 hc (by
              rw [List.map_cons]
              exact List.mem_cons_self _ _)
          have hP' : (L ++ [q]).map (fun n => n.id) =
              L.map (fun n => n.id) ++ [q.id] := by
            rw [List.map_append]
            rfl
          have hpop : ∀ v, remDeg g (L.map (fun n => n.id)) v =
              remDeg g ((L ++ [q]).map (fun n => n.id)) v +
                cntTo (g.getOutgoingEdges q) v := by
            intro v
            rw [hP']
            exact remDeg_pop g _ q hqP v
          have hextnode : ∀ n ∈ extra, n ∈ g.nodes := by
            intro n hn
            obtain ⟨e, he, hne⟩ := hmemx n hn
            have hee : e ∈ g.edges := List.mem_of_mem_filter he
            exact hne ▸ (hwf.2 e hee).2
          have hextfresh : ∀ n ∈ extra,
              n.id ∉ (L ++ q :: rest).map (fun m => m.id) := by
            intro n hn hc
            have h1 := (hposx n hn).1
            have h0 := (hzero n.id
              (List.mem_map_of_mem _ (hextnode n hn))).mpr hc
            omega
          have hL' : ∀ n ∈ L ++ [q], n ∈ g.nodes := by
            intro n hn
            rcases List.mem_append.mp hn with hn | hn
            · exact hL n hn
            · rw [List.mem_singleton.mp hn]
              exact hq
          have hQ' : ∀ n ∈ rest ++ extra, n ∈ g.nodes := by
            intro n hn
            rcases List.mem_append.mp hn with hn | hn
            · exact hQ n (List.mem_cons_of_mem _ hn)
            · exact hextnode n hn
          have hshape : ((L ++ [q]) ++ (rest ++ extra)).map (fun n => n.id) =
              (L ++ q :: rest).map (fun n => n.id) ++
                extra.map (fun n => n.id) := by
            rw [← List.map_append]
            congr 1
            rw [List.append_assoc, List.append_assoc]
            rfl
          have hnd' : (((L ++ [q]) ++ (rest ++ extra)).map
              (fun n => n.id)).Nodup := by
            rw [hshape, List.nodup_append]
            refine ⟨hnd, hndx, ?_⟩
            intro v hv hvx
            obtain ⟨n, hn, hnv⟩ := List.mem_map.mp hvx
            exact hextfresh n hn (hnv ▸ hv)
          have hdeg' : ∀ v ∈ nodeIds g,
              lookupA ((g.getOutgoingEdges q).foldl kahnEdgeStep (D, rest)).1 v =
                some ((remDeg g ((L ++ [q]).map (fun n => n.id)) v : Int)) := by
            intro v hv
            rw [hlook v hv, Option.some_inj]
            have := hpop v
            omega
          have hzero' : ∀ v ∈ nodeIds g,
              (remDeg g ((L ++ [q]).map (fun n => n.id)) v = 0 ↔
                v ∈ ((L ++ [q]) ++ (rest ++ extra)).map (fun n => n.id)) := by
            intro v hv
            rw [hshape, List.mem_append]
            constructor
            · intro h0
              by_cases hold : v ∈ (L ++ q :: rest).map (fun n => n.id)
              · exact Or.inl hold
              · have h1 : remDeg g (L.map (fun n => n.id)) v ≠ 0 := by
                  intro hz
                  exact hold ((hzero v hv).mp hz)
                obtain ⟨n, hn, hnv⟩ := hcomplx v hv
                  (by have := hpop v; omega) (by omega)
                exact Or.inr (hnv ▸ List.mem_map_of_mem _ hn)
            · intro h
              rcases h with h | h
              · have h0 := (hzero v hv).mpr h
                have := remDeg_zero_mono g (L.map (fun n => n.id)) q.id v h0
                rw [hP']
                exact this
              · obtain ⟨n, hn, hnv⟩ := List.mem_map.mp h
                have h2 := (hposx n hn).2
                have := hpop n.id
                rw [← hnv]
                omega
          have hbefore' : ∀ e ∈ g.edges,
              e.toNode.id ∈ (L ++ [q]).map (fun n => n.id) →
              Before (L ++ [q]) e.fromNode e.toNode := by
            intro e he hto
            rw [hP', List.mem_append] at hto
            rcases hto with hto | hto
            · exact before_append_right (hbefore e he hto) [q]
            · have htoq : e.toNode.id = q.id := List.mem_singleton.mp hto
              have hq0 : remDeg g (L.map (fun n => n.id)) q.id = 0 :=
                (hzero q.id (List.mem_map_of_mem _ hq)).mpr
                  (by
                    rw [List.map_append, List.mem_append, List.map_cons]
                    exact Or.inr (List.mem_cons_self _ _))
              have hfromP := remDeg_eq_zero_from_mem g _ q.id hq0 e he htoq
              obtain ⟨m, hm, hmv⟩ := List.mem_map.mp hfromP
              have hmeq : m = e.fromNode :=
                hwf.id_inj (hL m hm) (hwf.2 e he).1 hmv
              have htoeq : e.toNode = q :=
                hwf.id_inj (hwf.2 e he).2 hq htoq
              rw [htoeq]
              exact before_append_last (hmeq ▸ hm)
          have hfuel' : g.nodes.length ≤ fuel + (L ++ [q]).length := by
            rw [List.length_append]
            simp only [List.length_cons, List.length_nil]
            omega
          exact ih ((g.getOutgoingEdges q).foldl kahnEdgeStep (D, rest)).2
            ((g.getOutgoingEdges q).foldl kahnEdgeStep (D, rest)).1
            (L ++ [q]) hL' (hQ2 ▸ hQ') (hQ2 ▸ hnd') hdeg'
            (hQ2 ▸ hzero') hbefore' hfuel'

theorem topologicalSort_acyclic (g : Graph) (hwf : WFGraph g)
    (hacyc : Acyclic g) :
    ∃ l, g.TopologicalSort = Except.ok l ∧ l.Perm g.nodes ∧
      ∀ e ∈ g.edges, Before l e.fromNode e.toNode := by
  have hnc : g.HasCycle = false := by
    cases h : g.HasCycle
    · rfl
    · exact absurd (hasCycle_sound g h) hacyc
  have hts : g.TopologicalSort = Except.ok
      (kahnLoop g g.nodes.length (kahnInitQueue g) (kahnInDegrees g) []) := by
    unfold Graph.TopologicalSort
    rw [hnc]
    rfl
  have hresolve : ∀ p ∈ kahnInDegrees g,
      ∃ n, g.getNode p.1 = some n ∧ n.id = p.1 ∧ n ∈ g.nodes := by
    intro p hp
    have hkey : p.1 ∈ nodeIds g := by
      rw [← kahnInDegrees_keys g hwf]
      exact List.mem_map_of_mem Prod.fst hp
    exact getNode_isSome_of_id_mem hkey
  obtain ⟨hqmem, hqsub, hqiff⟩ := initQueue_facts g (kahnInDegrees g) hresolve
  have hQnodes : ∀ n ∈ kahnInitQueue g, n ∈ g.nodes := hqmem
  have hQnd : ((([] : List Node) ++ kahnInitQueue g).map
      (fun n => n.id)).Nodup := by
    rw [List.nil_append]
    have hnd2 : (keysA (kahnInDegrees g)).Nodup := by
      rw [kahnInDegrees_keys g hwf]
      exact hwf.1
    exact List.Nodup.sublist hqsub hnd2
  have hdeg0 : ∀ v ∈ nodeIds g, lookupA (kahnInDegrees g) v =
      some ((remDeg g (([] : List Node).map (fun n => n.id)) v : Int)) := by
    intro v hv
    exact kahnInDegrees_lookup g hwf v hv
  have hzero0 : ∀ v ∈ nodeIds g,
      (remDeg g (([] : List Node).map (fun n => n.id)) v = 0 ↔
        v ∈ (([] : List Node) ++ kahnInitQueue g).map (fun n => n.id)) := by
    intro v hv
    rw [List.nil_append]
    simp only [List.map_nil]
    unfold kahnInitQueue
    rw [hqiff v]
    constructor
    · intro h0
      refine lookupA_mem ?_
      rw [kahnInDegrees_lookup g hwf v hv, h0]
      rfl
    · intro hmem
      have hl := lookupA_eq_some_of_mem (by
        rw [show keysA (kahnInDegrees g) = nodeIds g from
          kahnInDegrees_keys g hwf]
        exact hwf.1) hmem
      rw [kahnInDegrees_lookup g hwf v hv, Option.some_inj] at hl
      omega
  obtain ⟨hmem, hndres, hcov, hbef⟩ := kahnLoop_correct g hwf hacyc
    g.nodes.length (kahnInitQueue g) (kahnInDegrees g) []
    (by intro n hn; simp at hn) hQnodes hQnd hdeg0 hzero0
    (by intro e _ hc; simp at hc) (by simp)
  refine ⟨kahnLoop g g.nodes.length (kahnInitQueue g) (kahnInDegrees g) [],
    hts, ?_, hbef⟩
  have hsub1 : kahnLoop g g.nodes.length (kahnInitQueue g)
      (kahnInDegrees g) [] ⊆ g.nodes := fun n hn => hmem n hn
  have hsub2 : g.nodes ⊆ kahnLoop g g.nodes.length (kahnInitQueue g)
      (kahnInDegrees g) [] := by
    intro n hn
    have hid := hcov n.id (List.mem_map_of_mem _ hn)
    obtain ⟨m, hm, hmv⟩ := List.mem_map.mp hid
    have : m = n := hwf.id_inj (hmem m hm) hn hmv
    exact this ▸ hm
  exact (List.Nodup.of_map _ hndres).subperm hsub1 |>.antisymm
    ((List.Nodup.of_map _ hwf.1).subperm hsub2)

theorem topologicalSort_cyclic (g : Graph) (hwf : WFGraph g)
    (hcyc : Cyclic g) :
    g.TopologicalSort = Except.error cyclicGraphMsg := by
  unfold Graph.TopologicalSort
  rw [hasCycle_complete g hwf hcyc]
  rfl

/-- C3.  For every well-formed acyclic graph, TopologicalSort returns a
list containing every node of the graph exactly once (a permutation of the
node list) in which the source of every edge appears strictly before its
target; for every well-formed cyclic graph it fails with exactly the
cyclic-graph error message, before any ordering work is done. -/
theorem TopologicalSort_correct (g : Graph) (hwf : WFGraph g) :
    (Acyclic g → ∃ l, g.TopologicalSort = Except.ok l ∧ l.Perm g.nodes ∧
      ∀ e ∈ g.edges, Before l e.fromNode e.toNode) ∧
    (Cyclic g → g.TopologicalSort = Except.error cyclicGraphMsg) :=
  ⟨topologicalSort_acyclic g hwf, topologicalSort_cyclic g hwf⟩

theorem TopologicalSort_correct_witness :
    WFGraph c3Graph ∧
    (Acyclic c3Graph → ∃ l, c3Graph.TopologicalSort = Except.ok l ∧
      l.Perm c3Graph.nodes ∧
      ∀ e ∈ c3Graph.edges, Before l e.fromNode e.toNode) ∧
    (Cyclic c3Graph → c3Graph.TopologicalSort = Except.error cyclicGraphMsg) :=
  ⟨by decide, TopologicalSort_correct c3Graph (by decide)⟩

theorem findPathsDFS_sound (g : Graph) (endId : String) (maxDepth : Nat) :
    ∀ (fuel : Nat) (current : Node) (cp : List Node) (visited : List String)
      (p : List Node),
      p ∈ findPathsDFS g endId maxDepth fuel current cp visited →
      (∀ x, x ∈ visited ↔ x ∈ cp.map (fun n => n.id)) →
      ((cp ++ [current]).map (fun n => n.id)).Nodup →
      fuel + cp.length = maxDepth + 1 →
      ∃ ext, p = cp ++ current :: ext ∧
        ((cp ++ current :: ext).map (fun n => n.id)).Nodup ∧
        (current :: ext).getLast?.map (fun n => n.id) = some endId ∧
        ChainAdj g (current :: ext) ∧
        (∀ x ∈ ext, ∃ e ∈ g.edges, e.toNode = x) ∧
        p.length ≤ maxDepth + 1 := by
  intro fuel
  induction fuel with
  | zero => intro current cp visited p hp; simp [findPathsDFS] at hp
  | succ fuel ih =>
      intro current cp visited p hp hv hnodup hfuel
      rw [findPathsDFS] at hp
      by_cases hlen : cp.length > maxDepth
      · simp [hlen] at hp
      · rw [if_neg hlen] at hp
        by_cases hend : current.id = endId
        · rw [if_pos hend] at hp
          simp only [List.mem_singleton] at hp
          refine ⟨[], hp, by simpa using hnodup, by simpa using hend, ?_, ?_, ?_⟩
          · trivial
          · simp
          · rw [hp]
            simp
            omega
        · rw [if_neg hend] at hp
          rcases List.mem_flatMap.mp hp with ⟨e, he, hpe⟩
          have hef : e ∈ g.edges ∧ e.fromNode.id = current.id := by
            have := List.mem_filter.mp he
            exact ⟨this.1, by simpa using this.2⟩
          by_cases hguard : e.toNode.id ∈ current.id :: visited
          · simp [hguard] at hpe
          · rw [if_neg hguard] at hpe
            have hto_not : e.toNode.id ∉ ((cp ++ [current]).map (fun n => n.id)) := by
              intro hc
              apply hguard
              simp only [List.map_append, List.map_cons, List.map_nil,
                List.mem_append, List.mem_singleton] at hc
              rcases hc with hc | hc
              · exact List.mem_cons_of_mem _ ((hv _).mpr hc)
              · simp [hc]
            have ihres := ih e.toNode (cp ++ [current]) (current.id :: visited) p
              hpe ?_ ?_ ?_
            · obtain ⟨ext, hpeq, hnd, hlast, hchain, hmem, hplen⟩ := ihres
              refine ⟨e.toNode :: ext, ?_, ?_, ?_, ?_, ?_, hplen⟩
              · rw [hpeq]; simp
              · simpa using hnd
              · rw [List.getLast?_cons_cons]
                exact hlast
              · exact ⟨⟨e, hef.1, hef.2, rfl⟩, hchain⟩
              · intro x hx
                rcases List.mem_cons.mp hx with hx | hx
                · exact ⟨e, hef.1, hx ▸ rfl⟩
                · exact hmem x hx
            · intro x
              constructor
              · intro hx
                rcases List.mem_cons.mp hx with hx | hx
                · simp [hx]
                · simp only [List.map_append, List.map_cons, List.map_nil,
                    List.mem_append, List.mem_singleton]
                  exact Or.inl ((hv _).mp hx)
              · intro hx
                simp only [List.map_append, List.map_cons, List.map_nil,
                  List.mem_append, List.mem_singleton] at hx
                rcases hx with hx | hx
                · exact List.mem_cons_of_mem _ ((hv _).mpr hx)
                · simp [hx]
            · rw [List.map_append, List.nodup_append]
              refine ⟨hnodup, by simp, ?_⟩
              intro a ha
              simp only [List.map_cons, List.map_nil, List.mem_singleton]
              intro hc
              exact hto_not (hc ▸ ha)
            · simp only [List.length_append, List.length_cons, List.length_nil]
              omega

theorem findPathsDFS_complete (g : Graph) (hwf : WFGraph g) (endId : String)
    (maxDepth : Nat) :
    ∀ (ext : List Node) (fuel : Nat) (current : Node) (cp : List Node)
      (visited : List String),
      (∀ x, x ∈ visited ↔ x ∈ cp.map (fun n => n.id)) →
      fuel + cp.length = maxDepth + 1 →
      ((cp ++ current :: ext).map (fun n => n.id)).Nodup →
      (cp ++ current :: ext).length ≤ maxDepth + 1 →
      ChainAdj g (current :: ext) →
      (∀ x ∈ current :: ext, x ∈ g.nodes) →
      (current :: ext).getLast?.map (fun n => n.id) = some endId →
      (cp ++ current :: ext) ∈ findPathsDFS g endId maxDepth fuel current cp visited := by
  intro ext
  induction ext with
  | nil =>
      intro fuel current cp visited hv hfuel hnodup hlen _ _ hlast
      simp only [List.getLast?_singleton, Option.map_some'] at hlast
      have hend : current.id = endId := by simpa using hlast
      match fuel, (by
          simp only [List.length_append, List.length_cons, List.length_nil] at hlen
          omega : fuel ≠ 0) with
      | fuel + 1, _ =>
        rw [findPathsDFS]
        rw [if_neg (by omega : ¬ cp.length > maxDepth)]
        rw [if_pos hend]
        simp
  | cons b ext ih =>
      intro fuel current cp visited hv hfuel hnodup hlen hchain hmem hlast
      have hlen' : cp.length + ext.length + 2 ≤ maxDepth + 1 := by
        simp only [List.length_append, List.length_cons] at hlen
        omega
      match fuel, (by omega : fuel ≠ 0) with
      | fuel + 1, _ =>
        rw [findPathsDFS]
        rw [if_neg (by omega : ¬ cp.length > maxDepth)]
        have hsub : ((current :: b :: ext).map (fun n => n.id)).Nodup := by
          have : (current :: b :: ext).Sublist (cp ++ current :: b :: ext) :=
            List.sublist_append_right _ _
          exact List.Nodup.sublist (List.Sublist.map _ this) hnodup
        have hend : current.id ≠ endId := by
          intro hc
          have hlastmem : ∃ x ∈ b :: ext, x.id = endId := by
            cases hl : (b :: ext).getLast? with
            | none => simp at hl
            | some x =>
                refine ⟨x, List.mem_of_mem_getLast? hl, ?_⟩
                rw [List.getLast?_cons_cons, hl] at hlast
                simpa using hlast
          obtain ⟨x, hx, hxid⟩ := hlastmem
          simp only [List.map_cons, List.nodup_cons] at hsub
          exact hsub.1 (by
            rw [← List.map_cons]
            have : x.id ∈ (b :: ext).map (fun n => n.id) :=
              List.mem_map_of_mem _ hx
            rw [hxid] at this
            rw [hc]
            simpa using this)
        rw [if_neg hend]
        obtain ⟨hadj, hchain'⟩ := hchain
        obtain ⟨e, he, hef, het⟩ := hadj
        have htoeq : e.toNode = b := by
          refine hwf.id_inj ((hwf.2 e he).2) (hmem b (by simp)) het
        refine List.mem_flatMap.mpr ⟨e, ?_, ?_⟩
        · exact List.mem_filter.mpr ⟨he, by simpa using hef⟩
        · have hguard : e.toNode.id ∉ current.id :: visited := by
            rw [htoeq]
            intro hc
            rcases List.mem_cons.mp hc with hc | hc
            · simp only [List.map_cons, List.nodup_cons] at hsub
              exact hsub.1 (by rw [← hc]; simp)
            · have hbid : b.id ∈ cp.map (fun n => n.id) := (hv _).mp hc
              have hdisj := List.disjoint_of_nodup_append
                (by rw [← List.map_append]; exact hnodup)
              exact hdisj hbid (by simp)
          rw [if_neg hguard]
          rw [htoeq]
          have := ih fuel b (cp ++ [current]) (current.id :: visited) ?_ ?_ ?_ ?_
            hchain' (fun x hx => hmem x (List.mem_cons_of_mem _ hx)) ?_
          · rw [show cp ++ current :: b :: ext =
              (cp ++ [current]) ++ b :: ext from by simp]
            exact this
          · intro x
            constructor
            · intro hx
              rcases List.mem_cons.mp hx with hx | hx
              · simp [hx]
              · simp only [List.map_append, List.map_cons, List.map_nil,
                  List.mem_append, List.mem_singleton]
                exact Or.inl ((hv _).mp hx)
            · intro hx
              simp only [List.map_append, List.map_cons, List.map_nil,
                List.mem_append, List.mem_singleton] at hx
              rcases hx with hx | hx
              · exact List.mem_cons_of_mem _ ((hv _).mpr hx)
              · simp [hx]
          · simp only [List.length_append, List.length_cons, List.length_nil]
            omega
          · rw [show (cp ++ [current]) ++ b :: ext =
              cp ++ current :: b :: ext from by simp]
            exact hnodup
          · rw [show (cp ++ [current]) ++ b :: ext =
              cp ++ current :: b :: ext from by simp]
            exact hlen
          · rw [List.getLast?_cons_cons] at hlast
            exact hlast

/-- C5.  For every well-formed graph, start and end ids and depth bound,
FindAllPaths returns exactly the simple paths from start to end within
the bound: a node list is returned if and only if it is a nonempty
id-nodup chain of graph nodes from startId to endId with at most
maxDepth hops. -/
theorem FindAllPaths_simple_paths (g : Graph) (hwf : WFGraph g)
    (startId endId : String) (maxDepth : Nat) (p : List Node) :
    p ∈ g.FindAllPaths startId endId maxDepth ↔
      IsSimplePath g startId endId maxDepth p := by
  constructor
  · intro hp
    unfold Graph.FindAllPaths at hp
    cases hfind : g.getNode startId with
    | none => rw [hfind] at hp; simp at hp
    | some start =>
        rw [hfind] at hp
        have hstart_mem : start ∈ g.nodes := List.mem_of_find?_eq_some hfind
        have hstart_id : start.id = startId := by
          have := List.find?_some hfind
          simpa using this
        obtain ⟨ext, hpeq, hnd, hlast, hchain, hmem, hplen⟩ :=
          findPathsDFS_sound g endId maxDepth (maxDepth + 1) start [] [] p hp
            (by simp) (by simp) (by simp)
        subst hpeq
        refine ⟨by simp, ?_, by simpa using hnd, by simp [hstart_id],
          by simpa using hlast, by simpa using hchain, hplen⟩
        intro x hx
        simp only [List.nil_append, List.mem_cons] at hx
        rcases hx with hx | hx
        · exact hx ▸ hstart_mem
        · obtain ⟨e, he, hte⟩ := hmem x hx
          exact hte ▸ (hwf.2 e he).2
  · intro hp
    obtain ⟨hne, hmem, hnd, hhead, hlast, hchain, hlen⟩ := hp
    match p, hne with
    | p0 :: ext, _ =>
      have hp0_id : p0.id = startId := by simpa using hhead
      have hp0_mem : p0 ∈ g.nodes := hmem p0 (by simp)
      unfold Graph.FindAllPaths
      cases hfind : g.getNode startId with
      | none =>
          exfalso
          have := List.find?_eq_none.mp hfind p0 hp0_mem
          simp [hp0_id] at this
      | some start =>
          have hstart_mem : start ∈ g.nodes := List.mem_of_find?_eq_some hfind
          have hstart_id : start.id = startId := by
            have := List.find?_some hfind
            simpa using this
          have hstart_eq : start = p0 :=
            hwf.id_inj hstart_mem hp0_mem (by rw [hstart_id, hp0_id])
          rw [hstart_eq]
          have := findPathsDFS_complete g hwf endId maxDepth ext (maxDepth + 1)
            p0 [] [] (by simp) (by simp) (by simpa using hnd)
            (by simpa using hlen) hchain hmem hlast
          simpa using this

/-- Witness for C5: the simple path node1-node2-node4 is returned on the
diamond graph. -/
theorem FindAllPaths_simple_paths_witness :
    [c5N1, c5N2, c5N4] ∈ c5Graph.FindAllPaths "node1" "node4" 5 :=
  (FindAllPaths_simple_paths c5Graph (by decide) "node1" "node4" 5
    [c5N1, c5N2, c5N4]).mpr (by decide)

theorem DepChain.ne_nil {cg ep ds} (h : DepChain cg ep ds) : ds ≠ [] := by
  cases h <;> simp

/-- C1 (amended).  The entry produced for a dependency chain d1, ..., dk
within the depth bound has cost equal to the direct cost found in the
endpoint-cost map that the initiating service's attribution pass was
started with, under the key "(last target's endpoint):GET" (zero when
that key is absent), multiplied by the product of the chain's edge
weights; the k = 1 instance is the depth-1 entry of a single dependency
edge. -/
theorem calculateDownstreamCosts_chain_cost (cg : CallGraph)
    (costs : List (String × EndpointCost)) :
    ∀ (fuel : Nat) (ep : Endpoint) (depth : Nat) (visited : List String)
      (ds : List Dependency) (dlast : Dependency),
      DepChain cg ep ds → ds.getLast? = some dlast →
      (ds.map depVisitKey).Nodup →
      (∀ k ∈ ds.map depVisitKey, k ∉ visited) →
      ds.length ≤ fuel → fuel + depth ≤ 11 →
      ({ service := dlast.toService, endpoint := dlast.toEndpoint,
         cost := lookupDirect costs (dlast.toEndpoint ++ ":" ++ "GET") *
           (ds.map (fun d => d.weight)).prod,
         callsPerRequest := dlast.weight,
         depth := depth + ds.length } : DownstreamCost) ∈
        calculateDownstreamCosts cg costs fuel ep depth visited := by
  intro fuel ep depth visited ds dlast hchain
  induction hchain generalizing fuel depth visited with
  | @single ep d hmem hmatch =>
      intro hlast hnodup hvis hlen hfd
      match fuel, hlen with
      | fuel + 1, _ =>
        simp only [List.getLast?_singleton, Option.some.injEq] at hlast
        subst hlast
        have hdepth : ¬ depth > 10 := by omega
        simp only [calculateDownstreamCosts, hdepth, if_false]
        refine List.mem_flatMap.mpr ⟨d, hmem, ?_⟩
        have hkey : depVisitKey d ∉ visited := hvis _ (by simp)
        simp only [hmatch, if_pos, hkey, if_false]
        have hshape :
            ({ service := d.toService, endpoint := d.toEndpoint,
               cost := lookupDirect costs (d.toEndpoint ++ ":" ++ "GET") *
                 ([d].map (fun d => d.weight)).prod,
               callsPerRequest := d.weight,
               depth := depth + [d].length } : DownstreamCost) =
            { service := d.toService, endpoint := d.toEndpoint,
              cost := lookupDirect costs (d.toEndpoint ++ ":" ++ "GET") * d.weight,
              callsPerRequest := d.weight, depth := depth + 1 } := by
          simp
        rw [hshape]
        match hres : resolveTarget cg d with
        | some te => exact List.mem_cons_self _ _
        | none => simp
  | @cons ep d ds te hmem hmatch hres htail ih =>
      intro hlast hnodup hvis hlen hfd
      match fuel, hlen with
      | fuel + 1, hlen =>
        have hdsnil : ds ≠ [] := htail.ne_nil
        have hlast' : ds.getLast? = some dlast := by
          match ds, hdsnil with
          | b :: t, _ => rw [List.getLast?_cons_cons] at hlast; exact hlast
        have hdepth : ¬ depth > 10 := by omega
        simp only [calculateDownstreamCosts, hdepth, if_false]
        refine List.mem_flatMap.mpr ⟨d, hmem, ?_⟩
        have hkey : depVisitKey d ∉ visited := hvis _ (by simp)
        simp only [hmatch, if_pos, hkey, if_false, hres]
        refine List.mem_cons_of_mem _ ?_
        refine List.mem_map.mpr ⟨?_, ?_, ?_⟩
        · exact { service := dlast.toService, endpoint := dlast.toEndpoint,
                  cost := lookupDirect costs (dlast.toEndpoint ++ ":" ++ "GET") *
                    (ds.map (fun d => d.weight)).prod,
                  callsPerRequest := dlast.weight,
                  depth := (depth + 1) + ds.length }
        · refine ih fuel (depth + 1) (depVisitKey d :: visited) hlast'
            ?_ ?_ ?_ ?_
          · simp only [List.map_cons, List.nodup_cons] at hnodup
            exact hnodup.2
          · intro k hk
            simp only [List.map_cons, List.nodup_cons] at hnodup
            simp only [List.mem_cons]
            push_neg
            refine ⟨?_, hvis _ (by simp [hk])⟩
            intro hkk
            exact hnodup.1 (hkk ▸ hk)
          · simpa using Nat.le_of_succ_le_succ (by simpa using hlen)
          · omega
        · simp only [List.map_cons, List.prod_cons, List.length_cons]
          congr 1
          · ring
          · omega

/-- C1 counterexample.  On c1Graph the depth-1 entry recorded for the
dependency A:/a -> B:/x has cost 0, although B:/x's computed direct cost
is 5 and the edge weight is 2: the claimed value 5 * 2 is not produced,
because the source looks the target up in the initiating service's
endpoint-cost map under "/x:GET", where no such key exists. -/
theorem calculateDownstreamCosts_chain_cost_cex :
    ((lookupA c1Report.services "A").bind
        (fun sc => lookupA sc.endpoints "/a:GET")).map
        (fun ec => ec.downstreamCosts) =
      some [ { service := "B", endpoint := "/x", cost := 0,
               callsPerRequest := 2, depth := 1 } ] ∧
    ((lookupA c1Report.services "B").bind
        (fun sc => lookupA sc.endpoints "/x:GET")).map
        (fun ec => ec.directCost) = some 5 ∧
    (0 : ℚ) ≠ 5 * 2 := by
  refine ⟨?_, ?_, by norm_num⟩
  · simp [c1Report, CalculateCosts, serviceCostFor, calculateEndpointCost,
      NewCostBreakdown, finalizeEndpoint, calculateDownstreamCosts, lookupA,
      insertA, lookupDirect, resolveTarget, depMatches, depVisitKey, epKey,
      NewCostReport, CostReport.AddServiceCost, MetricsSnapshot.getServiceMetrics,
      CallGraph.getService, Service.getEndpoint, dtSum, c1Model, c1Graph,
      c1Snapshot, c1EpA, c1EpX, List.find?]
  · simp [c1Report, CalculateCosts, serviceCostFor, calculateEndpointCost,
      NewCostBreakdown, finalizeEndpoint, calculateDownstreamCosts, lookupA,
      insertA, lookupDirect, resolveTarget, depMatches, depVisitKey, epKey,
      NewCostReport, CostReport.AddServiceCost, MetricsSnapshot.getServiceMetrics,
      CallGraph.getService, Service.getEndpoint, dtSum, c1Model, c1Graph,
      c1Snapshot, c1EpA, c1EpX, List.find?]

/-- Witness for the amended C1 on the chain /a -> /b -> /c: the depth-2
entry costs 11 * (2 * 3) = 66. -/
theorem calculateDownstreamCosts_chain_cost_witness :
    ({ service := "S", endpoint := "/c", cost := 66, callsPerRequest := 3,
       depth := 2 } : DownstreamCost) ∈
      calculateDownstreamCosts c1wGraph c1wCosts 11 c1wEpA 0 [] := by
  have h := calculateDownstreamCosts_chain_cost c1wGraph c1wCosts 11 c1wEpA 0 []
    [c1wDep1, c1wDep2] c1wDep2
    (DepChain.cons (by simp [c1wGraph]) ⟨rfl, rfl⟩ rfl
      (DepChain.single (by simp [c1wGraph]) ⟨rfl, rfl⟩))
    rfl (by simp [depVisitKey, c1wDep1, c1wDep2]) (by simp)
    (by simp) (by omega)
  have he :
      ({ service := c1wDep2.toService, endpoint := c1wDep2.toEndpoint,
         cost := lookupDirect c1wCosts (c1wDep2.toEndpoint ++ ":" ++ "GET") *
           ([c1wDep1, c1wDep2].map (fun d => d.weight)).prod,
         callsPerRequest := c1wDep2.weight,
         depth := 0 + [c1wDep1, c1wDep2].length } : DownstreamCost) =
      { service := "S", endpoint := "/c", cost := 66, callsPerRequest := 3,
        depth := 2 } := by
    simp [lookupDirect, lookupA, c1wCosts, c1wCostB, c1wCostC, c1wDep1, c1wDep2]
    norm_num
  rw [he] at h
  exact h

/-! ### Claim C4: the per-path visited set -/

theorem foldrPair_fst {α β γ : Type} (l : List α) (g : α → List β × List γ) :
    ((l.map g).foldr (fun p acc => (p.1 ++ acc.1, p.2 ++ acc.2))
      ([], [])).1 = l.flatMap (fun a => (g a).1) := by
  induction l with
  | nil => rfl
  | cons hd tl ih => simp [ih]

theorem foldrPair_snd {α β γ : Type} (l : List α) (g : α → List β × List γ) :
    ((l.map g).foldr (fun p acc => (p.1 ++ acc.1, p.2 ++ acc.2))
      ([], [])).2 = l.flatMap (fun a => (g a).2) := by
  induction l with
  | nil => rfl
  | cons hd tl ih => simp [ih]

theorem calculateDownstreamCostsTrace_fst (cg : CallGraph)
    (costs : List (String × EndpointCost)) :
    ∀ (fuel : Nat) (ep : Endpoint) (depth : Nat) (visited : List String),
      (calculateDownstreamCostsTrace cg costs fuel ep depth visited).1 =
        calculateDownstreamCosts cg costs fuel ep depth visited := by
  intro fuel
  induction fuel with
  | zero => intro ep depth visited; rfl
  | succ fuel ih =>
      intro ep depth visited
      by_cases hdepth : depth > 10
      · simp [calculateDownstreamCostsTrace, calculateDownstreamCosts, hdepth]
      · simp only [calculateDownstreamCostsTrace, calculateDownstreamCosts,
          hdepth, if_false]
        rw [foldrPair_fst]
        congr 1
        funext dep
        by_cases hm : depMatches ep dep
        · by_cases hv : depVisitKey dep ∈ visited
          · simp [hm, hv]
          · simp only [hm, if_pos, hv, if_false]
            match hres : resolveTarget cg dep with
            | some te => simp [ih]
            | none => simp
        · simp [hm]

theorem calculateDownstreamCostsTrace_events (cg : CallGraph)
    (costs : List (String × EndpointCost)) :
    ∀ (fuel : Nat) (ep : Endpoint) (depth : Nat) (visited : List String)
      (k : String) (p : List String),
      (k, p) ∈ (calculateDownstreamCostsTrace cg costs fuel ep depth visited).2 →
      k ∉ p ∧ visited <:+ p := by
  intro fuel
  induction fuel with
  | zero => intro ep depth visited k p h; simp [calculateDownstreamCostsTrace] at h
  | succ fuel ih =>
      intro ep depth visited k p h
      by_cases hdepth : depth > 10
      · simp [calculateDownstreamCostsTrace, hdepth] at h
      · simp only [calculateDownstreamCostsTrace, hdepth, if_false] at h
        rw [foldrPair_snd] at h
        rcases List.mem_flatMap.mp h with ⟨dep, _, hdep⟩
        by_cases hm : depMatches ep dep
        · by_cases hv : depVisitKey dep ∈ visited
          · simp [hm, hv] at hdep
          · simp only [hm, if_pos, hv, if_false] at hdep
            match hres : resolveTarget cg dep with
            | some te =>
                rw [hres] at hdep
                simp only [List.mem_cons] at hdep
                rcases hdep with hdep | hdep
                · obtain ⟨hk, hp⟩ := Prod.mk.injEq .. ▸ hdep
                  simp only [Prod.mk.injEq] at hdep
                  refine ⟨?_, ?_⟩
                  · rw [hdep.1, hdep.2]; exact hv
                  · rw [hdep.2]
                · have := ih te (depth + 1) (depVisitKey dep :: visited) k p hdep
                  exact ⟨this.1, (List.suffix_cons _ _).trans this.2⟩
            | none =>
                rw [hres] at hdep
                simp at hdep
        · simp [hm] at hdep

theorem calculateDownstreamCosts_all_pruned (cg : CallGraph)
    (costs : List (String × EndpointCost)) :
    ∀ (fuel : Nat) (ep : Endpoint) (depth : Nat) (visited : List String),
      (∀ dep ∈ cg.dependencies, depMatches ep dep → depVisitKey dep ∈ visited) →
      calculateDownstreamCosts cg costs fuel ep depth visited = [] := by
  intro fuel ep depth visited hall
  match fuel with
  | 0 => rfl
  | fuel + 1 =>
      by_cases hdepth : depth > 10
      · simp [calculateDownstreamCosts, hdepth]
      · simp only [calculateDownstreamCosts, hdepth, if_false]
        rw [List.flatMap_eq_nil_iff]
        intro dep hdep
        by_cases hm : depMatches ep dep
        · simp [hm, hall dep hdep hm]
        · simp [hm]

/-- C4.  The downstream traversal never re-enters a target already on the
current recursion path, and the visited set is path-scoped: the
instrumented traversal coincides with calculateDownstreamCosts on the
costs it produces; every recorded entry into a target finds the target's
key absent from the path at entry and sees the ambient path only extended
on top (pushed on entry, popped on exit — siblings and callers keep their
own set); and when every matching dependency targets a key already on the
path, the whole branch is pruned to the empty contribution. -/
theorem calculateDownstreamCosts_path_scoped (cg : CallGraph)
    (costs : List (String × EndpointCost)) :
    (∀ (fuel : Nat) (ep : Endpoint) (depth : Nat) (visited : List String),
      (calculateDownstreamCostsTrace cg costs fuel ep depth visited).1 =
        calculateDownstreamCosts cg costs fuel ep depth visited) ∧
    (∀ (fuel : Nat) (ep : Endpoint) (depth : Nat) (visited : List String)
      (k : String) (p : List String),
      (k, p) ∈ (calculateDownstreamCostsTrace cg costs fuel ep depth visited).2 →
      k ∉ p ∧ visited <:+ p) ∧
    (∀ (fuel : Nat) (ep : Endpoint) (depth : Nat) (visited : List String),
      (∀ dep ∈ cg.dependencies, depMatches ep dep → depVisitKey dep ∈ visited) →
      calculateDownstreamCosts cg costs fuel ep depth visited = []) :=
  ⟨calculateDownstreamCostsTrace_fst cg costs,
    calculateDownstreamCostsTrace_events cg costs,
    calculateDownstreamCosts_all_pruned cg costs⟩

/-- Witness for C4 on the cyclic c4Graph: the second recorded entry
(into A:/a, along the path through B:/b) carries a path not containing
its key and extending the empty ambient path. -/
theorem calculateDownstreamCosts_path_scoped_witness :
    "A:/a" ∉ ["B:/b"] ∧ ([] : List String) <:+ ["B:/b"] :=
  (calculateDownstreamCosts_path_scoped c4Graph []).2.1 11 c4EpA 0 [] "A:/a" ["B:/b"]
    (by simp [calculateDownstreamCostsTrace, c4Graph, c4EpA, c4EpB, c4DepAB,
      c4DepBA, depMatches, depVisitKey, resolveTarget, CallGraph.getService,
      Service.getEndpoint, List.find?, lookupDirect, lookupA])

/-! ### Pipeline invariants shared by C6, C8 and C9 -/

theorem lookupA_eq_none_iff {α : Type} {l : List (String × α)} {k : String} :
    lookupA l k = none ↔ k ∉ keysA l := by
  induction l with
  | nil => simp [lookupA, keysA]
  | cons hd tl ih =>
      obtain ⟨a, b⟩ := hd
      rw [keysA, List.map_cons]
      by_cases hk : a = k
      · subst hk
        simp [lookupA]
      · rw [show lookupA ((a, b) :: tl) k = lookupA tl k from by simp [lookupA, hk]]
        rw [ih]
        simp only [List.mem_cons]
        constructor
        · intro h hc
          rcases hc with hc | hc
          · exact hk hc.symm
          · exact h hc
        · intro h hc
          exact h (Or.inr hc)

theorem calculateEndpointCost_phaseInv (c : CostModel) (ep : Endpoint)
    (sm : Option ServiceMetrics) (H : ℚ) :
    PhaseInv (calculateEndpointCost c ep sm H) := by
  unfold calculateEndpointCost
  match sm with
  | none => exact ⟨fun cb h => by simp at h, fun _ => rfl⟩
  | some s =>
      simp only
      cases hl : lookupA s.endpoints (epKey ep) with
      | none => exact ⟨fun cb h => by simp at h, fun _ => rfl⟩
      | some em =>
          obtain ⟨res, perf⟩ := em
          cases res with
          | none => exact ⟨fun cb h => by simp at h, fun _ => rfl⟩
          | some r =>
              refine ⟨fun cb h => ?_, fun h => by simp at h⟩
              simp only [Option.some.injEq] at h
              subst h
              rfl

theorem finalizeEndpoint_keysA {cg : CallGraph} {ep : Endpoint}
    {m : List (String × EndpointCost)} (h : (keysA m).Nodup) :
    (keysA (finalizeEndpoint cg ep m)).Nodup := by
  unfold finalizeEndpoint
  match lookupA m (epKey ep) with
  | none => exact h
  | some ec => exact keysA_insertA_nodup h

theorem finalizeEndpoint_phaseInv {cg : CallGraph} {ep : Endpoint}
    {m : List (String × EndpointCost)} (hP : ∀ kv ∈ m, PhaseInv kv.2) :
    ∀ kv ∈ finalizeEndpoint cg ep m, PhaseInv kv.2 := by
  intro kv hkv
  unfold finalizeEndpoint at hkv
  match hl : lookupA m (epKey ep) with
  | none => rw [hl] at hkv; exact hP kv hkv
  | some ec =>
      rw [hl] at hkv
      rcases mem_insertA hkv with hm | hew
      · exact hP kv hm
      · have hec : PhaseInv ec := hP (epKey ep, ec) (lookupA_mem hl)
        rw [hew]
        constructor
        · intro cb hcb
          simp only [Option.map_eq_some'] at hcb
          obtain ⟨cb0, hcb0, hcbeq⟩ := hcb
          subst hcbeq
          exact hec.1 cb0 hcb0
        · intro hnone
          simp only [Option.map_eq_none'] at hnone
          exact hec.2 hnone

theorem finalizeEndpoint_spec {cg : CallGraph} {ep : Endpoint}
    {m : List (String × EndpointCost)} {ec : EndpointCost}
    (hl : lookupA m (epKey ep) = some ec) (hec : PhaseInv ec) :
    ∃ ec', finalizeEndpoint cg ep m = insertA m (epKey ep) ec' ∧
      PhaseInv ec' ∧ FinalInv ec' := by
  unfold finalizeEndpoint
  rw [hl]
  refine ⟨_, rfl, ⟨fun cb hcb => ?_, fun hnone => ?_⟩, rfl, fun cb hcb => ?_,
    fun hnone => ?_⟩
  · simp only [Option.map_eq_some'] at hcb
    obtain ⟨cb0, hcb0, hcbeq⟩ := hcb
    subst hcbeq
    exact hec.1 cb0 hcb0
  · simp only [Option.map_eq_none'] at hnone
    exact hec.2 hnone
  · simp only [Option.map_eq_some'] at hcb
    obtain ⟨cb0, hcb0, hcbeq⟩ := hcb
    subst hcbeq
    refine ⟨rfl, ?_⟩
    show ec.directCost + _ = _
    rw [hec.1 cb0 hcb0]
  · simp only [Option.map_eq_none'] at hnone
    exact hec.2 hnone

theorem phase2_finalInv (cg : CallGraph) :
    ∀ (eps : List Endpoint) (m : List (String × EndpointCost)),
      (keysA m).Nodup →
      (∀ kv ∈ m, PhaseInv kv.2) →
      (∀ kv ∈ m, kv.1 ∈ eps.map epKey ∨ FinalInv kv.2) →
      ∀ kv ∈ eps.foldl (fun m' ep => finalizeEndpoint cg ep m') m,
        PhaseInv kv.2 ∧ FinalInv kv.2 := by
  intro eps
  induction eps with
  | nil =>
      intro m _ hP hF kv hkv
      refine ⟨hP kv hkv, ?_⟩
      rcases hF kv hkv with h | h
      · simp at h
      · exact h
  | cons ep eps ih =>
      intro m hkeys hP hF kv hkv
      simp only [List.foldl_cons] at hkv
      refine ih (finalizeEndpoint cg ep m) (finalizeEndpoint_keysA hkeys)
        (finalizeEndpoint_phaseInv hP) ?_ kv hkv
      intro kv' hkv'
      cases hl : lookupA m (epKey ep) with
      | none =>
          have hmem : kv' ∈ m := by
            unfold finalizeEndpoint at hkv'
            rw [hl] at hkv'
            exact hkv'
          rcases hF kv' hmem with h | h
          · simp only [List.map_cons, List.mem_cons] at h
            rcases h with h | h
            · exfalso
              rw [lookupA_eq_none_iff] at hl
              exact hl (h ▸ List.mem_map_of_mem Prod.fst hmem)
            · exact Or.inl h
          · exact Or.inr h
      | some ec =>
          obtain ⟨ec', hfe, _, hF'⟩ := finalizeEndpoint_spec hl (hP _ (lookupA_mem hl))
          rw [hfe] at hkv'
          rcases mem_insertA_nodup hkeys hkv' with ⟨hm, hne⟩ | heq
          · rcases hF kv' hm with h | h
            · simp only [List.map_cons, List.mem_cons] at h
              rcases h with h | h
              · exact absurd h hne
              · exact Or.inl h
            · exact Or.inr h
          · right
            rw [heq]
            exact hF'

theorem phase1_entries (c : CostModel) (sm : Option ServiceMetrics) (H : ℚ) :
    ∀ (eps : List Endpoint) (acc : List (String × EndpointCost) × ℚ),
      (keysA acc.1).Nodup →
      (∀ kv ∈ acc.1, PhaseInv kv.2) →
      (∀ kv ∈ acc.1, kv.1 ∈ keysA acc.1) →
      (keysA (eps.foldl
        (fun (a : List (String × EndpointCost) × ℚ) ep =>
          (insertA a.1 (epKey ep)
            (calculateEndpointCost c ep sm H),
            a.2 + (calculateEndpointCost c ep sm H).directCost)) acc).1).Nodup ∧
      ∀ kv ∈ (eps.foldl
        (fun (a : List (String × EndpointCost) × ℚ) ep =>
          (insertA a.1 (epKey ep)
            (calculateEndpointCost c ep sm H),
            a.2 + (calculateEndpointCost c ep sm H).directCost)) acc).1,
        PhaseInv kv.2 ∧ (kv.1 ∈ keysA acc.1 ∨ kv.1 ∈ eps.map epKey) := by
  intro eps
  induction eps with
  | nil =>
      intro acc hkeys hP _
      exact ⟨hkeys, fun kv hkv => ⟨hP kv hkv, Or.inl (List.mem_map_of_mem Prod.fst hkv)⟩⟩
  | cons ep eps ih =>
      intro acc hkeys hP hself
      simp only [List.foldl_cons]
      have h1 := ih (insertA acc.1 (epKey ep) (calculateEndpointCost c ep sm H),
        acc.2 + (calculateEndpointCost c ep sm H).directCost)
        (keysA_insertA_nodup hkeys) ?_ ?_
      · refine ⟨h1.1, fun kv hkv => ?_⟩
        obtain ⟨hPkv, hkey⟩ := h1.2 kv hkv
        refine ⟨hPkv, ?_⟩
        rcases hkey with hkey | hkey
        · rcases keysA_insertA acc.1 (epKey ep) (calculateEndpointCost c ep sm H)
            with he | he
          · rw [he] at hkey; exact Or.inl hkey
          · rw [he] at hkey
            rcases List.mem_append.mp hkey with hm | hm
            · exact Or.inl hm
            · simp at hm
              exact Or.inr (by simp [hm])
        · exact Or.inr (by simp [hkey])
      · intro kv hkv
        rcases mem_insertA hkv with hm | heq
        · exact hP kv hm
        · rw [heq]
          exact calculateEndpointCost_phaseInv c ep sm H
      · intro kv hkv
        exact List.mem_map_of_mem Prod.fst hkv

theorem serviceCostFor_entries (c : CostModel) (cg : CallGraph)
    (ms : MetricsSnapshot) (H : ℚ) (s : Service) :
    ∀ kv ∈ (serviceCostFor c cg ms H s).endpoints,
      PhaseInv kv.2 ∧ FinalInv kv.2 := by
  intro kv hkv
  unfold serviceCostFor at hkv
  simp only at hkv
  have h1 := phase1_entries c (ms.getServiceMetrics s.name) H s.endpoints ([], 0)
    (by simp [keysA]) (by simp) (by simp)
  refine phase2_finalInv cg s.endpoints _ h1.1 (fun kv' hkv' => (h1.2 kv' hkv').1)
    ?_ kv hkv
  intro kv' hkv'
  rcases (h1.2 kv' hkv').2 with h | h
  · simp [keysA] at h
  · exact Or.inl h

theorem addServiceCost_foldl_mem (f : Service → ServiceCost) :
    ∀ (ss : List Service) (rep : CostReport) (kv : String × ServiceCost),
      kv ∈ (ss.foldl (fun r s => r.AddServiceCost (f s)) rep).services →
      kv ∈ rep.services ∨ ∃ s ∈ ss, kv.2 = f s := by
  intro ss
  induction ss with
  | nil => intro rep kv hkv; exact Or.inl hkv
  | cons s ss ih =>
      intro rep kv hkv
      simp only [List.foldl_cons] at hkv
      rcases ih (rep.AddServiceCost (f s)) kv hkv with hm | ⟨s', hs', he⟩
      · rcases mem_insertA hm with hm' | heq
        · exact Or.inl hm'
        · exact Or.inr ⟨s, List.mem_cons_self _ _, by rw [heq]⟩
      · exact Or.inr ⟨s', List.mem_cons_of_mem _ hs', he⟩

theorem calculateCosts_services_shape (c : CostModel) (cg : CallGraph)
    (ms : MetricsSnapshot) (tr : TimeRange) :
    ∀ kv ∈ (CalculateCosts c cg ms tr).1.services,
      ∃ s ∈ cg.services, kv.2 = serviceCostFor c cg ms (tr.stop - tr.start) s := by
  intro kv hkv
  have hkv' : kv ∈ (cg.services.foldl
      (fun r s => r.AddServiceCost (serviceCostFor c cg ms (tr.stop - tr.start) s))
      (NewCostReport c tr)).services := hkv
  rcases addServiceCost_foldl_mem _ cg.services (NewCostReport c tr) kv hkv' with hm | h
  · simp [NewCostReport] at hm
  · exact h

/-! ### Claim C8: the breakdown total invariant -/

/-- C8.  Every endpoint cost of a computed report whose breakdown is
present satisfies, after finalization,
total = cpu + memory + network + disk + request + downstreamTotal. -/
theorem CalculateCosts_breakdown_total (c : CostModel) (cg : CallGraph)
    (ms : MetricsSnapshot) (tr : TimeRange) :
    ∀ kv ∈ (CalculateCosts c cg ms tr).1.services,
      ∀ kv2 ∈ kv.2.endpoints, ∀ cb, kv2.2.costBreakdown = some cb →
        cb.total = cb.cpuCost + cb.memoryCost + cb.networkCost + cb.diskCost +
          cb.requestCost + cb.downstreamTotal := by
  intro kv hkv kv2 hkv2 cb hcb
  obtain ⟨s, _, hs⟩ := calculateCosts_services_shape c cg ms tr kv hkv
  rw [hs] at hkv2
  have h := serviceCostFor_entries c cg ms (tr.stop - tr.start) s kv2 hkv2
  exact (h.2.2.1 cb hcb).2

/-! ### Claim C6: the review-dependency-chain recommendation rule -/

/-- C6.  For every endpoint cost of a computed report, the
"review dependency chain" recommendation is produced for it exactly when
its direct cost is strictly positive and its downstream-to-direct
quotient strictly exceeds 5 (so a zero direct cost is excluded from the
rule and a quotient of exactly 5 produces nothing), and a produced
recommendation names that endpoint in the report's recommendation
list. -/
theorem generateRecommendations_reviewChain (c : CostModel) (cg : CallGraph)
    (ms : MetricsSnapshot) (tr : TimeRange) :
    ∀ kv ∈ (CalculateCosts c cg ms tr).1.services,
      ∀ kv2 ∈ kv.2.endpoints,
        (reviewChainRec kv2.2 ≠ [] ↔
          0 < kv2.2.directCost ∧ dtSum kv2.2 / kv2.2.directCost > 5) ∧
        (dtSum kv2.2 / kv2.2.directCost = 5 → reviewChainRec kv2.2 = []) ∧
        (reviewChainRec kv2.2 ≠ [] →
          Recommendation.reviewChain kv2.2.service kv2.2.endpoint ∈
            (CalculateCosts c cg ms tr).1.recommendations) := by
  intro kv hkv kv2 hkv2
  obtain ⟨s, _, hs⟩ := calculateCosts_services_shape c cg ms tr kv hkv
  have hent : PhaseInv kv2.2 ∧ FinalInv kv2.2 := by
    rw [hs] at hkv2
    exact serviceCostFor_entries c cg ms (tr.stop - tr.start) s kv2 hkv2
  have hmain : (reviewChainRec kv2.2 ≠ [] ↔
      0 < kv2.2.directCost ∧ dtSum kv2.2 / kv2.2.directCost > 5) ∧
      (reviewChainRec kv2.2 ≠ [] → reviewChainRec kv2.2 =
        [Recommendation.reviewChain kv2.2.service kv2.2.endpoint]) := by
    cases hcb : kv2.2.costBreakdown with
    | none =>
        have hrc : reviewChainRec kv2.2 = [] := by
          unfold reviewChainRec
          rw [hcb]
        rw [hrc]
        refine ⟨⟨fun hne => absurd rfl hne, fun hcond => ?_⟩,
          fun hne => absurd rfl hne⟩
        have h0 := hent.2.2.2 hcb
        rw [h0] at hcond
        exact absurd hcond.1 (lt_irrefl 0)
    | some cb =>
        have hrc : reviewChainRec kv2.2 =
            if kv2.2.directCost > 0 ∧ cb.downstreamTotal / kv2.2.directCost > 5
            then [Recommendation.reviewChain kv2.2.service kv2.2.endpoint]
            else [] := by
          unfold reviewChainRec
          rw [hcb]
        obtain ⟨hdt, _⟩ := hent.2.2.1 cb hcb
        rw [hrc]
        by_cases hcond : kv2.2.directCost > 0 ∧
            cb.downstreamTotal / kv2.2.directCost > 5
        · rw [if_pos hcond]
          exact ⟨⟨fun _ => ⟨hcond.1, hdt ▸ hcond.2⟩, fun _ => by simp⟩,
            fun _ => rfl⟩
        · rw [if_neg hcond]
          refine ⟨⟨fun hne => absurd rfl hne, fun hc => ?_⟩,
            fun hne => absurd rfl hne⟩
          exact absurd ⟨hc.1, hdt ▸ hc.2⟩ hcond
  refine ⟨hmain.1, ?_, ?_⟩
  · intro heq
    by_contra hne
    have := (hmain.1.mp hne).2
    rw [heq] at this
    exact lt_irrefl 5 this
  · intro hne
    have hform := hmain.2 hne
    show _ ∈ generateRecommendations _
    unfold generateRecommendations
    refine List.mem_append_right _ ?_
    refine List.mem_flatMap.mpr ⟨kv, hkv, ?_⟩
    refine List.mem_flatMap.mpr ⟨kv2, hkv2, ?_⟩
    rw [hform]
    exact List.mem_singleton_self _

/-- Witness for C8 on a one-service, one-endpoint calculation. -/
theorem CalculateCosts_breakdown_total_witness :
    c8Cb.total = c8Cb.cpuCost + c8Cb.memoryCost + c8Cb.networkCost +
      c8Cb.diskCost + c8Cb.requestCost + c8Cb.downstreamTotal :=
  CalculateCosts_breakdown_total c8Model c8Graph c8Snapshot
    { start := 0, stop := 1 } ("S", c8Sc)
    (by simp [CalculateCosts, serviceCostFor, calculateEndpointCost,
      NewCostBreakdown, finalizeEndpoint, calculateDownstreamCosts, lookupA,
      insertA, lookupDirect, resolveTarget, depMatches, depVisitKey, epKey,
      NewCostReport, CostReport.AddServiceCost, MetricsSnapshot.getServiceMetrics,
      CallGraph.getService, Service.getEndpoint, dtSum, c8Model, c8Graph,
      c8Snapshot, c8Ep, c8Sc, c8Ec, c8Cb, List.find?])
    ("/e:GET", c8Ec) (by simp [c8Sc]) c8Cb rfl

/-- Witness for C6: /a's downstream total 6 against direct cost 1 exceeds
the 5x threshold, so the report carries the review recommendation for
it. -/
theorem generateRecommendations_reviewChain_witness :
    Recommendation.reviewChain "S" "/a" ∈
      (CalculateCosts c6Model c6Graph c6Snapshot
        { start := 0, stop := 1 }).1.recommendations := by
  exact (generateRecommendations_reviewChain c6Model c6Graph c6Snapshot
    { start := 0, stop := 1 } ("S", c6Sc)
    (by
      simp [CalculateCosts, serviceCostFor, calculateEndpointCost,
        NewCostBreakdown, finalizeEndpoint, calculateDownstreamCosts, lookupA,
        insertA, lookupDirect, resolveTarget, depMatches, depVisitKey, epKey,
        NewCostReport, CostReport.AddServiceCost,
        MetricsSnapshot.getServiceMetrics, CallGraph.getService,
        Service.getEndpoint, dtSum, c6Model, c6Graph, c6Snapshot, c6EpA, c6EpB,
        c6Dep, c6Metric, c6Res, c6Sc, c6EcA, c6EcB, c6CbA, c6CbB, c6Dc,
        List.find?]
      norm_num)
    ("/a:GET", c6EcA) (by simp [c6Sc])).2.2
    (by
      simp [reviewChainRec, c6EcA, c6CbA]
      norm_num)

/-! ### Claim C9: the report total is the sum of the service totals -/

theorem addServiceCost_foldl_sum :
    ∀ (scs : List ServiceCost) (rep : CostReport),
      (∀ sc ∈ scs, lookupA rep.services sc.serviceName = none) →
      ((scs.map (fun sc => sc.serviceName)).Nodup) →
      (scs.foldl CostReport.AddServiceCost rep).totalCost =
          rep.totalCost + (scs.map (fun sc => sc.totalCost)).sum ∧
      (scs.foldl CostReport.AddServiceCost rep).services =
          rep.services ++ scs.map (fun sc => (sc.serviceName, sc)) := by
  intro scs
  induction scs with
  | nil => intro rep _ _; simp
  | cons sc scs ih =>
      intro rep hdisj hnodup
      simp only [List.foldl_cons]
      have hserv : (rep.AddServiceCost sc).services =
          rep.services ++ [(sc.serviceName, sc)] := by
        unfold CostReport.AddServiceCost
        simp only
        exact insertA_of_lookupA_none sc (hdisj sc (List.mem_cons_self _ _))
      simp only [List.map_cons, List.nodup_cons] at hnodup
      have h := ih (rep.AddServiceCost sc) ?_ hnodup.2
      · refine ⟨?_, ?_⟩
        · rw [h.1]
          show rep.totalCost + sc.totalCost + _ = _
          simp [List.sum_cons]
          ring
        · rw [h.2, hserv]
          simp [List.map_cons, List.append_assoc]
      · intro sc' hsc'
        rw [hserv, lookupA_append]
        rw [(lookupA_eq_none_iff).mpr ?_, lookupA]
        · rw [if_neg ?_, lookupA]
          intro heq
          exact hnodup.1 (heq ▸ List.mem_map_of_mem _ hsc')
        · rw [← lookupA_eq_none_iff]
          exact hdisj sc' (List.mem_cons_of_mem _ hsc')

/-- C9.  A computed report's total cost is the sum of the total costs of
its service costs (service names are unique, being the keys of the Go
service map); and three services with totals 10, 20 and 15.5 aggregate
to a report total of 45.5. -/
theorem CalculateCosts_totalCost_sum (c : CostModel) (cg : CallGraph)
    (ms : MetricsSnapshot) (tr : TimeRange)
    (hnodup : (cg.services.map (fun s => s.name)).Nodup) :
    (CalculateCosts c cg ms tr).1.totalCost =
      ((CalculateCosts c cg ms tr).1.services.map
        (fun kv => kv.2.totalCost)).sum ∧
    ((((NewCostReport c9Model { start := 0, stop := 1 }).AddServiceCost
        c9Sc1).AddServiceCost c9Sc2).AddServiceCost c9Sc3).totalCost = 45.5 := by
  constructor
  · have hfold :
        (CalculateCosts c cg ms tr).1.totalCost =
          (cg.services.foldl
            (fun r s => r.AddServiceCost (serviceCostFor c cg ms (tr.stop - tr.start) s))
            (NewCostReport c tr)).totalCost ∧
        (CalculateCosts c cg ms tr).1.services =
          (cg.services.foldl
            (fun r s => r.AddServiceCost (serviceCostFor c cg ms (tr.stop - tr.start) s))
            (NewCostReport c tr)).services := ⟨rfl, rfl⟩
    rw [hfold.1, hfold.2]
    rw [show (cg.services.foldl
        (fun r s => r.AddServiceCost (serviceCostFor c cg ms (tr.stop - tr.start) s))
        (NewCostReport c tr)) =
      ((cg.services.map (serviceCostFor c cg ms (tr.stop - tr.start))).foldl
        CostReport.AddServiceCost (NewCostReport c tr)) from (List.foldl_map _ _ _ _).symm]
    have h := addServiceCost_foldl_sum
      (cg.services.map (serviceCostFor c cg ms (tr.stop - tr.start)))
      (NewCostReport c tr) ?_ ?_
    · rw [h.1, h.2]
      simp only [NewCostReport, List.map_map, List.nil_append, zero_add]
      rfl
    · intro sc _
      simp [NewCostReport, lookupA]
    · have : ((cg.services.map (serviceCostFor c cg ms (tr.stop - tr.start))).map
          (fun sc => sc.serviceName)) = cg.services.map (fun s => s.name) := by
        simp [List.map_map, Function.comp, serviceCostFor]
      rw [this]
      exact hnodup
  · simp [NewCostReport, CostReport.AddServiceCost, c9Sc1, c9Sc2, c9Sc3]
    norm_num

/-- Witness for C9 on a concrete two-service call graph. -/
theorem CalculateCosts_totalCost_sum_witness :
    (CalculateCosts c9Model c9Graph { services := [] }
        { start := 0, stop := 1 }).1.totalCost =
      ((CalculateCosts c9Model c9Graph { services := [] }
        { start := 0, stop := 1 }).1.services.map
          (fun kv => kv.2.totalCost)).sum ∧
    ((((NewCostReport c9Model { start := 0, stop := 1 }).AddServiceCost
        c9Sc1).AddServiceCost c9Sc2).AddServiceCost c9Sc3).totalCost = 45.5 :=
  CalculateCosts_totalCost_sum c9Model c9Graph { services := [] }
    { start := 0, stop := 1 } (by simp [c9Graph])

/-! ### Claim C10: the calculation never returns an error -/

/-- C10.  CalculateCosts always returns a report together with a nil
error: missing metrics, services without endpoints, unresolvable
dependency targets and cycles in the downstream walk never surface to the
caller as an error. -/
theorem CalculateCosts_error_always_nil (c : CostModel) (cg : CallGraph)
    (ms : MetricsSnapshot) (tr : TimeRange) :
    (CalculateCosts c cg ms tr).2 = none := rfl

end MicroCost
